import Mathlib

/-!
Verification of the `rojo sync` command (`src/cli/sync.rs`) against its
specification.

The sync command merges a Rojo project into an existing Roblox place or
model file: it loads the input file into a tree, builds the desired
snapshot from the project, computes a patch, filters the patch with the
sync merge policy (drop all removals, drop all property clears), applies
it, and writes the result in the format implied by the output extension.

The snapshot engine (`compute_patch_set`, `apply_patch_set`, `RojoTree`,
`PatchSet`) lives in the crate's `snapshot` module, which is not part of
the sources under verification; those parts are modelled from the
specification (sections 3, 4.2 and 4.3).  Everything in `src/cli/sync.rs`
itself — the merge-policy filter, `FileKind::from_path`,
`process_model_dom`, `read_dom`'s error contexts, `write_tree_to_file`'s
root-set selection, and the order of checks in `SyncCommand::run` — is
embedded directly from the source.
-/

/-! ## Core data model

Modelled from the spec: instance identifiers, tagged property values,
instance trees and detached snapshots (spec section 3); the concrete
arena representation is outside the verified sources, so trees are
modelled as rose trees carrying their identifiers. -/

abbrev Ref := Nat

/-- Tagged property value (spec section 3: boolean, number, string and
Reference variants; the closed set of composite variants is represented
by its discriminating cases). -/
inductive Variant where
  | str (s : String)
  | num (n : Int)
  | bool (b : Bool)
  | ref (r : Ref)
deriving DecidableEq, Repr

/-- A property map, ordered as stored. -/
abbrev Props := List (String × Variant)

/-- Modelled from the spec: `InstanceSnapshot` — an immutable, detached
subtree description with class, name, property mapping and ordered child
snapshots, and no identifier of its own (spec section 3). -/
inductive Snap where
  | node (className name : String) (props : Props) (children : List Snap)

/-- Modelled from the spec: a live instance tree.  Each node carries its
process-stable identifier, class tag, display name, property mapping and
ordered children (spec section 3). -/
inductive RTree where
  | node (ref : Ref) (className name : String) (props : Props) (children : List RTree)

def Snap.className : Snap → String
  | .node c _ _ _ => c

def Snap.name : Snap → String
  | .node _ n _ _ => n

def Snap.props : Snap → Props
  | .node _ _ p _ => p

def Snap.children : Snap → List Snap
  | .node _ _ _ ch => ch

def RTree.ref : RTree → Ref
  | .node r _ _ _ _ => r

def RTree.className : RTree → String
  | .node _ c _ _ _ => c

def RTree.name : RTree → String
  | .node _ _ n _ _ => n

def RTree.props : RTree → Props
  | .node _ _ _ p _ => p

def RTree.children : RTree → List RTree
  | .node _ _ _ _ ch => ch

-- All identifiers occurring in a tree, in pre-order.
mutual
def RTree.refs : RTree → List Ref
  | .node r _ _ _ ch => r :: RTree.refsList ch

def RTree.refsList : List RTree → List Ref
  | [] => []
  | t :: rest => RTree.refs t ++ RTree.refsList rest
end

-- Largest identifier occurring in a tree (used to allocate fresh ones).
mutual
def RTree.maxRef : RTree → Nat
  | .node r _ _ _ ch => max r (RTree.maxRefList ch)

def RTree.maxRefList : List RTree → Nat
  | [] => 0
  | t :: rest => max (RTree.maxRef t) (RTree.maxRefList rest)
end

-- Look a node up by identifier (first match in pre-order).
mutual
def RTree.findRef : RTree → Ref → Option RTree
  | .node r cl nm p ch, target =>
    if r = target then some (.node r cl nm p ch) else RTree.findRefList ch target

def RTree.findRefList : List RTree → Ref → Option RTree
  | [], _ => none
  | t :: rest, target =>
    match RTree.findRef t target with
    | some u => some u
    | none => RTree.findRefList rest target
end

/-! ## Property-map operations -/

/-- Value stored under a key, if any (hash-map lookup on the model's
ordered representation). -/
def lookupProp : Props → String → Option Variant
  | [], _ => none
  | (k0, v) :: rest, k => if k0 = k then some v else lookupProp rest k

/-- Hash-map insert: overwrite the key in place if present, append
otherwise. -/
def setProp : Props → String → Variant → Props
  | [], k, v => [(k, v)]
  | (k0, v0) :: rest, k, v =>
    if k0 = k then (k0, v) :: rest else (k0, v0) :: setProp rest k v

/-- Hash-map remove: drop every entry for the key. -/
def clearProp (ps : Props) (k : String) : Props :=
  ps.filter (fun kv => decide (kv.1 ≠ k))

/-- Apply a list of property deltas in order: `some v` sets, `none`
clears (spec section 4.3). -/
def applyDeltas : Props → List (String × Option Variant) → Props
  | ps, [] => ps
  | ps, (k, some v) :: rest => applyDeltas (setProp ps k v) rest
  | ps, (k, none) :: rest => applyDeltas (clearProp ps k) rest

/-! ## Patch model

Modelled from the spec (section 3): the diff engine's only output type.
Field names follow the source's use in `src/cli/sync.rs`
(`removed_instances`, `updated_instances`, `changed_properties`, and the
per-entry `Option` delta where `some v` is `Set(v)` and `none` is
`Clear`). -/

/-- One updated-instance entry: the target identifier and its property
deltas (`some v` = Set, `none` = Clear). -/
structure PatchUpdate where
  id : Ref
  changed_properties : List (String × Option Variant)
deriving DecidableEq, Repr

/-- One added-instance entry: parent identifier plus the full desired
subtree to insert (spec sections 3 and 4.2). -/
structure PatchAdd where
  parent : Ref
  snap : Snap

/-- Modelled from the spec: the `PatchSet` produced by
`compute_patch_set` in the snapshot module (outside the verified
sources). -/
structure PatchSet where
  added_instances : List PatchAdd
  removed_instances : List Ref
  updated_instances : List PatchUpdate

def PatchSet.empty : PatchSet := ⟨[], [], []⟩

def PatchSet.merge (p q : PatchSet) : PatchSet :=
  ⟨p.added_instances ++ q.added_instances,
   p.removed_instances ++ q.removed_instances,
   p.updated_instances ++ q.updated_instances⟩

/-! ## Diff engine

Modelled from the spec (section 4.2): walk desired snapshot and existing
tree in lock-step; pair children by class and name with stable-order
tie-breaking; unmatched existing children are removed (without
recursing), unmatched desired children are added carrying their full
subtree; paired nodes diff their property maps key by key. -/

/-- Find the first existing child matching the given class and name;
return it together with the remaining children in order. -/
def findPair (cl nm : String) : List RTree → Option (RTree × List RTree)
  | [] => none
  | t :: rest =>
    if t.className = cl ∧ t.name = nm then
      some (t, rest)
    else
      match findPair cl nm rest with
      | some (u, rem) => some (u, t :: rem)
      | none => none

/-- Property deltas between a desired and an existing property map:
differing or newly-present desired properties emit Set, existing
properties absent from desired emit Clear (spec section 4.2). -/
def propDiff (desired existing : Props) : List (String × Option Variant) :=
  (desired.filter (fun kv => decide (lookupProp existing kv.1 ≠ some kv.2))).map
      (fun kv => (kv.1, some kv.2))
    ++ (existing.filter (fun kv => decide (lookupProp desired kv.1 = none))).map
      (fun kv => (kv.1, (none : Option Variant)))

-- Modelled from the spec: `compute_patch_set` (diff engine, spec
-- section 4.2); `diffChildren` pairs the children of one node.
mutual
def compute_patch_set : Snap → RTree → PatchSet
  | .node _ _ sp sch, .node r _ _ tp tch =>
    let deltas := propDiff sp tp
    let upd : List PatchUpdate := if deltas = [] then [] else [⟨r, deltas⟩]
    PatchSet.merge ⟨[], [], upd⟩ (diffChildren sch tch r)

def diffChildren : List Snap → List RTree → Ref → PatchSet
  | [], ex, _ => ⟨[], ex.map RTree.ref, []⟩
  | s :: rest, ex, parent =>
    match findPair s.className s.name ex with
    | some (t, ex2) => PatchSet.merge (compute_patch_set s t) (diffChildren rest ex2 parent)
    | none => PatchSet.merge ⟨[⟨parent, s⟩], [], []⟩ (diffChildren rest ex parent)
end

/-! ## Patch applier

Modelled from the spec (section 4.3): apply `added` entries first in the
given order, allocating fresh identifiers; then `updated` deltas (Set
overwrites, Clear removes); then `removed`, deleting each named
subtree. -/

-- Materialize a snapshot as a tree, assigning fresh identifiers in
-- pre-order starting from the given counter.
mutual
def materialize : Snap → Nat → RTree × Nat
  | .node cl nm p ch, n =>
    let (chs, n2) := materializeList ch (n + 1)
    (.node n cl nm p chs, n2)

def materializeList : List Snap → Nat → List RTree × Nat
  | [], n => ([], n)
  | s :: rest, n =>
    let (t, n2) := materialize s n
    let (ts, n3) := materializeList rest n2
    (t :: ts, n3)
end

-- Append a new child under the node with the given identifier (on
-- well-formed trees identifiers are unique, so exactly one node gains
-- the child).
mutual
def insertUnder : RTree → Ref → RTree → RTree
  | .node r cl nm p ch, parent, child =>
    if r = parent then .node r cl nm p (insertUnderList ch parent child ++ [child])
    else .node r cl nm p (insertUnderList ch parent child)

def insertUnderList : List RTree → Ref → RTree → List RTree
  | [], _, _ => []
  | t :: rest, parent, child => insertUnder t parent child :: insertUnderList rest parent child
end

-- Rewrite the properties of the node with the given identifier by a
-- delta list (Set overwrites, Clear removes; on well-formed trees the
-- target identifier occurs once).
mutual
def updateTree : RTree → Ref → List (String × Option Variant) → RTree
  | .node r cl nm p ch, target, ds =>
    .node r cl nm (if r = target then applyDeltas p ds else p) (updateTreeList ch target ds)

def updateTreeList : List RTree → Ref → List (String × Option Variant) → List RTree
  | [], _, _ => []
  | t :: rest, target, ds => updateTree t target ds :: updateTreeList rest target ds
end

-- Delete the subtree rooted at the given identifier (the root itself is
-- never a removal target, spec section 3).
mutual
def removeRef : RTree → Ref → RTree
  | .node r cl nm p ch, target => .node r cl nm p (removeRefList ch target)

def removeRefList : List RTree → Ref → List RTree
  | [], _ => []
  | t :: rest, target =>
    if t.ref = target then removeRefList rest target
    else removeRef t target :: removeRefList rest target
end

def applyAdds : RTree → List PatchAdd → Nat → RTree × Nat
  | t, [], n => (t, n)
  | t, a :: rest, n =>
    let (m, n2) := materialize a.snap n
    applyAdds (insertUnder t a.parent m) rest n2

def applyUpdates : RTree → List PatchUpdate → RTree
  | t, [] => t
  | t, u :: rest => applyUpdates (updateTree t u.id u.changed_properties) rest

def applyRemoves : RTree → List Ref → RTree
  | t, [] => t
  | t, r :: rest => applyRemoves (removeRef t r) rest

/-- Modelled from the spec: `apply_patch_set` (patch applier, spec
section 4.3) — adds first, then updates, then removes; fresh
identifiers are drawn from the given counter upward. -/
def apply_patch_set (t : RTree) (p : PatchSet) (fresh : Nat) : RTree :=
  applyRemoves
    (applyUpdates (applyAdds t p.added_instances fresh).1 p.updated_instances)
    p.removed_instances

/-! ## `src/cli/sync.rs` — embedded from the source -/

/-- From `src/cli/sync.rs`: `UNKNOWN_INPUT_KIND_ERR`. -/
def UNKNOWN_INPUT_KIND_ERR : String :=
  "Could not detect what kind of file was inputted. Expected input file to end in .rbxl, .rbxlx, .rbxm, or .rbxmx."

/-- From `src/cli/sync.rs`: `UNKNOWN_OUTPUT_KIND_ERR`. -/
def UNKNOWN_OUTPUT_KIND_ERR : String :=
  "Could not detect what kind of file to output. Expected output file to end in .rbxl, .rbxlx, .rbxm, or .rbxmx."

/-- A filesystem path, abstracted to the two components `sync.rs` reads:
its display string and its extension (`Path::extension()` composed with
`to_str()`, so `none` covers both a missing extension and a non-UTF-8
one). -/
structure SPath where
  display : String
  extension : Option String
deriving DecidableEq, Repr

/-- From `src/cli/sync.rs`: the `FileKind` enum. -/
inductive FileKind where
  | Rbxmx
  | Rbxlx
  | Rbxm
  | Rbxl
deriving DecidableEq, Repr

/-- From `src/cli/sync.rs`: `FileKind::from_path` — exact, case-sensitive
match on the path's extension. -/
def FileKind.from_path (path : SPath) : Option FileKind :=
  match path.extension with
  | none => none
  | some extension =>
    match extension with
    | "rbxlx" => some FileKind.Rbxlx
    | "rbxmx" => some FileKind.Rbxmx
    | "rbxl" => some FileKind.Rbxl
    | "rbxm" => some FileKind.Rbxm
    | _ => none

/-- From `src/cli/sync.rs`: the error message of the `bail!` in
`process_model_dom`. -/
def MODEL_SHAPE_ERR : String :=
  "Rojo does not currently support models with more than one Instance at the Root!"

/-- From `src/cli/sync.rs`: `process_model_dom` — a decoded model dom
must have exactly one instance under its synthetic root; that instance's
class and properties move onto the root of a fresh tree (whose name,
per `InstanceBuilder::new`, is the class name) and its children are
re-parented onto that new root.  The fresh tree's root identifier is 0,
matching a fresh dom's allocation. -/
def process_model_dom (dom : RTree) : Except String RTree :=
  match dom.children with
  | [c] => .ok (.node 0 c.className c.className c.props c.children)
  | _ => .error MODEL_SHAPE_ERR

/-- Outcomes of the external collaborators `SyncCommand::run` calls:
the project-loading middleware and the byte-level codec for the input
file (spec section 6 treats both as external). -/
structure SyncEnv where
  project_load : Except String Snap
  input_decode : Except String RTree

/-- From `src/cli/sync.rs`: `read_dom` — decode the input file according
to its kind, wrapping codec failures with a context message naming the
path, and passing model doms through `process_model_dom`. -/
def read_dom (env : SyncEnv) (path : SPath) (file_kind : FileKind) : Except String RTree :=
  match file_kind with
  | FileKind.Rbxl =>
    match env.input_decode with
    | .ok dom => .ok dom
    | .error _ => .error ("Could not deserialize binary place file at " ++ path.display)
  | FileKind.Rbxlx =>
    match env.input_decode with
    | .ok dom => .ok dom
    | .error _ => .error ("Could not deserialize XML place file at " ++ path.display)
  | FileKind.Rbxm =>
    match env.input_decode with
    | .ok temp_tree => process_model_dom temp_tree
    | .error _ => .error ("Could not deserialize binary model file at " ++ path.display)
  | FileKind.Rbxmx =>
    match env.input_decode with
    | .ok temp_tree => process_model_dom temp_tree
    | .error _ => .error ("Could not deserialize XML model file at " ++ path.display)

/-- From `src/cli/sync.rs` lines 71–76: the sync merge policy, applied
to the computed patch before it is applied — clear `removed_instances`
entirely and, within each updated entry, retain only the deltas whose
value `is_some` (the Set deltas). -/
def syncPolicyFilter (patch_set : PatchSet) : PatchSet :=
  { patch_set with
    removed_instances := [],
    updated_instances := patch_set.updated_instances.map
      (fun update =>
        { update with
          changed_properties :=
            update.changed_properties.filter (fun kv => kv.2.isSome) }) }

-- All property keys occurring anywhere in a snapshot.
mutual
def snapKeys : Snap → List String
  | .node _ _ p ch => p.map Prod.fst ++ snapKeysList ch

def snapKeysList : List Snap → List String
  | [] => []
  | s :: rest => snapKeys s ++ snapKeysList rest
end

/-- The value of property `P` on the instance with identifier `Y`, if
that instance exists and carries the property. -/
def propAt (t : RTree) (Y : Ref) (P : String) : Option Variant :=
  match t.findRef Y with
  | some n => lookupProp n.props P
  | none => none

/-- The merged tree the sync command produces from a desired snapshot
and the input tree: compute the patch, filter it with the sync merge
policy, apply it with fresh identifiers (`sync.rs` lines 65–78). -/
def syncResult (desired_snapshot : Snap) (tree_old : RTree) : RTree :=
  apply_patch_set tree_old
    (syncPolicyFilter (compute_patch_set desired_snapshot tree_old))
    (tree_old.maxRef + 1)

/-- From `src/cli/sync.rs`: the binary/XML codec split in
`write_tree_to_file`. -/
inductive Codec where
  | binary
  | xml
deriving DecidableEq, Repr

/-- From `src/cli/sync.rs`: `write_tree_to_file`, abstracted to the data
it hands the external codec — which codec is used and which identifiers
form the serialized root set.  Model formats serialize the tree's own
root; place formats serialize the root's children as top-level
instances. -/
def write_tree_to_file (tree : RTree) (kind : FileKind) : Codec × List Ref :=
  match kind with
  | FileKind.Rbxm => (Codec.binary, [tree.ref])
  | FileKind.Rbxl => (Codec.binary, tree.children.map RTree.ref)
  | FileKind.Rbxmx => (Codec.xml, [tree.ref])
  | FileKind.Rbxlx => (Codec.xml, tree.children.map RTree.ref)

/-- Observable side effects of `SyncCommand::run`, in program order:
loading the project, reading the input file, writing the output file. -/
inductive SyncEvent where
  | loadedProject
  | readInputFile
  | wroteOutput
deriving DecidableEq, Repr

/-- From `src/cli/sync.rs`: the `SyncCommand` argument record. -/
structure SyncCommand where
  project : SPath
  input : SPath
  output : SPath

/-- From `src/cli/sync.rs`: `SyncCommand::run` — check both file kinds
first, then load the project, read the input dom, compute the patch,
filter it with the sync merge policy, apply it, and write the result.
Returns the outcome (the merged tree on success) together with the list
of side effects that occurred, in order. -/
def SyncCommand.run (env : SyncEnv) (cmd : SyncCommand) :
    Except String RTree × List SyncEvent :=
  match FileKind.from_path cmd.input with
  | none => (.error UNKNOWN_INPUT_KIND_ERR, [])
  | some input_kind =>
    match FileKind.from_path cmd.output with
    | none => (.error UNKNOWN_OUTPUT_KIND_ERR, [])
    | some _output_kind =>
      match env.project_load with
      | .error e => (.error e, [SyncEvent.loadedProject])
      | .ok desired_snapshot =>
        match read_dom env cmd.input input_kind with
        | .error e => (.error e, [SyncEvent.loadedProject, SyncEvent.readInputFile])
        | .ok tree_old =>
          (.ok (syncResult desired_snapshot tree_old),
           [SyncEvent.loadedProject, SyncEvent.readInputFile, SyncEvent.wroteOutput])


/-! ## Proof devices for the idempotence argument -/

-- Replace each list entry whose root identifier is assigned in `asg` by
-- its assigned tree, drop entries whose root identifier is in `gone`,
-- keep the rest.
def replaceByRef (asg : List (Ref × RTree)) (gone : List Ref) : List RTree → List RTree
  | [] => []
  | e :: rest =>
    if e.ref ∈ gone then replaceByRef asg gone rest
    else
      match asg.find? (fun pr => decide (pr.1 = e.ref)) with
      | some pr => pr.2 :: replaceByRef asg gone rest
      | none => e :: replaceByRef asg gone rest

-- The recursive merge the full diff/apply pipeline performs: paired
-- nodes keep their identifier, receive the property deltas and recurse;
-- unmatched desired children are materialized fresh and appended;
-- unmatched existing children are dropped.  Fresh identifiers are
-- consumed in patch order, mirroring the applier's add phase.
mutual
def mergeExec : Snap → RTree → Nat → RTree × Nat
  | .node _ _ sp sch, .node r tcl tnm tp tch, n =>
    match mergeChildren sch tch n with
    | (asg, addsT, remR, n2) =>
      (.node r tcl tnm (applyDeltas tp (propDiff sp tp))
        (replaceByRef asg remR tch ++ addsT), n2)

def mergeChildren : List Snap → List RTree → Nat →
    List (Ref × RTree) × List RTree × List Ref × Nat
  | [], ex, n => ([], [], ex.map RTree.ref, n)
  | s :: rest, ex, n =>
    match findPair s.className s.name ex with
    | some (t, ex2) =>
      match mergeExec s t n with
      | (t2, n2) =>
        match mergeChildren rest ex2 n2 with
        | (asg, addsT, remR, n3) => ((t.ref, t2) :: asg, addsT, remR, n3)
    | none =>
      match materialize s n with
      | (m, n2) =>
        match mergeChildren rest ex n2 with
        | (asg, addsT, remR, n3) => (asg, m :: addsT, remR, n3)
end

-- A tree is in sync with a snapshot when the property diff is empty and
-- the children pair off exactly (same greedy pairing as the diff
-- engine), recursively.
mutual
def MatchesB : Snap → RTree → Bool
  | .node _ _ sp sch, .node _ _ _ tp tch =>
    decide (propDiff sp tp = []) && MatchesChildrenB sch tch

def MatchesChildrenB : List Snap → List RTree → Bool
  | [], [] => true
  | [], _ :: _ => false
  | s :: rest, ex =>
    match findPair s.className s.name ex with
    | some (t, ex2) => MatchesB s t && MatchesChildrenB rest ex2
    | none => false
end

-- Snapshot well-formedness: every property map in the snapshot has
-- pairwise-distinct keys (they come from hash maps in the source).
mutual
def snapWF : Snap → Bool
  | .node _ _ p ch => decide ((p.map Prod.fst).Nodup) && snapWFList ch

def snapWFList : List Snap → Bool
  | [] => true
  | s :: rest => snapWF s && snapWFList rest
end

/-! ## Claims about the merge-policy filter -/

/-- C1: for every patch computed by the sync command, the sync merge
policy (the post-processing filter applied before the patch is applied)
empties the patch's removed-instances set entirely and, in every
updated-instance entry, retains exactly the Set deltas (`some v`) while
dropping every Clear delta (`none`). -/
theorem syncPolicyFilter_drops_removals_and_clears (p : PatchSet) :
    (syncPolicyFilter p).removed_instances = [] ∧
    (syncPolicyFilter p).added_instances = p.added_instances ∧
    List.Forall₂
      (fun u u' : PatchUpdate =>
        u'.id = u.id ∧
        (∀ k v, (k, some v) ∈ u'.changed_properties ↔ (k, some v) ∈ u.changed_properties) ∧
        ∀ k, (k, (none : Option Variant)) ∉ u'.changed_properties)
      p.updated_instances (syncPolicyFilter p).updated_instances := by
  refine ⟨rfl, rfl, ?_⟩
  simp only [syncPolicyFilter]
  rw [List.forall₂_map_right_iff]
  refine List.forall₂_same.mpr ?_
  intro u _
  refine ⟨rfl, ?_, ?_⟩
  · intro k v
    simp [List.mem_filter]
  · intro k
    simp [List.mem_filter]

/-- C8: the filter removes deltas within updated entries but never
removes an entry itself — an entry whose deltas were all Clear stays in
the updated-instances list with an empty delta map. -/
theorem syncPolicyFilter_keeps_entries (p : PatchSet) :
    (syncPolicyFilter p).updated_instances.length = p.updated_instances.length ∧
    List.Forall₂
      (fun u u' : PatchUpdate =>
        u'.id = u.id ∧
        ((∀ kv ∈ u.changed_properties, kv.2 = (none : Option Variant)) →
          u'.changed_properties = []))
      p.updated_instances (syncPolicyFilter p).updated_instances := by
  constructor
  · simp [syncPolicyFilter]
  · simp only [syncPolicyFilter]
    rw [List.forall₂_map_right_iff]
    refine List.forall₂_same.mpr ?_
    intro u _
    refine ⟨rfl, ?_⟩
    intro hall
    rw [List.filter_eq_nil_iff]
    intro kv hkv
    rw [hall kv hkv]
    simp

/-- C8 witness: a patch whose single updated entry has only Clear
deltas keeps that entry, with an empty delta map, after filtering. -/
theorem syncPolicyFilter_keeps_entries_witness :
    (syncPolicyFilter ⟨[], [7], [⟨3, [("P", none)]⟩]⟩).updated_instances.length =
        ([⟨3, [("P", none)]⟩] : List PatchUpdate).length ∧
    List.Forall₂
      (fun u u' : PatchUpdate =>
        u'.id = u.id ∧
        ((∀ kv ∈ u.changed_properties, kv.2 = (none : Option Variant)) →
          u'.changed_properties = []))
      [⟨3, [("P", none)]⟩]
      (syncPolicyFilter ⟨[], [7], [⟨3, [("P", none)]⟩]⟩).updated_instances :=
  syncPolicyFilter_keeps_entries ⟨[], [7], [⟨3, [("P", none)]⟩]⟩

/-! ## Claims about file-kind detection and fail-fast behavior -/

/-- C9: file-kind detection matches the extension exactly and
case-sensitively — any path whose extension is not literally one of
"rbxl", "rbxlx", "rbxm", "rbxmx" (including uppercase variants and
missing extensions) yields no file kind. -/
theorem from_path_unknown_extension_none (p : SPath)
    (h : ∀ s, p.extension = some s →
      s ∉ (["rbxl", "rbxlx", "rbxm", "rbxmx"] : List String)) :
    FileKind.from_path p = none := by
  unfold FileKind.from_path
  cases hext : p.extension with
  | none => rfl
  | some s =>
    have hs := h s hext
    simp only [List.mem_cons, List.mem_singleton] at hs
    push_neg at hs
    obtain ⟨h1, h2, h3, h4⟩ := hs
    split <;> simp_all

/-- C9 witness: the uppercase extension "RBXM" and a missing extension
both yield no file kind. -/
theorem from_path_unknown_extension_none_witness :
    FileKind.from_path ⟨"model.RBXM", some "RBXM"⟩ = none ∧
    FileKind.from_path ⟨"model", none⟩ = none :=
  ⟨from_path_unknown_extension_none ⟨"model.RBXM", some "RBXM"⟩
      (by intro s hs; cases hs; decide),
   from_path_unknown_extension_none ⟨"model", none⟩
      (by intro s hs; cases hs)⟩

/-- C4: if the input or the output path has an unrecognized extension,
the sync command fails with one of the two descriptive unknown-kind
errors and produces no side effects at all — no project load, no file
read, no write. -/
theorem run_fails_before_processing_on_unknown_kind (env : SyncEnv) (cmd : SyncCommand)
    (h : FileKind.from_path cmd.input = none ∨ FileKind.from_path cmd.output = none) :
    ∃ msg, SyncCommand.run env cmd = (.error msg, []) ∧
      (msg = UNKNOWN_INPUT_KIND_ERR ∨ msg = UNKNOWN_OUTPUT_KIND_ERR) := by
  unfold SyncCommand.run
  cases hin : FileKind.from_path cmd.input with
  | none => exact ⟨UNKNOWN_INPUT_KIND_ERR, rfl, Or.inl rfl⟩
  | some input_kind =>
    cases hout : FileKind.from_path cmd.output with
    | none => exact ⟨UNKNOWN_OUTPUT_KIND_ERR, rfl, Or.inr rfl⟩
    | some output_kind =>
      rcases h with h | h
      · rw [hin] at h; cases h
      · rw [hout] at h; cases h

/-- C4 witness: a `.txt` input fails with the unknown-input error and an
empty effect trace. -/
theorem run_fails_before_processing_on_unknown_kind_witness :
    ∃ msg,
      SyncCommand.run
        ⟨Except.ok (Snap.node "Folder" "Folder" [] []),
         Except.ok (RTree.node 0 "DataModel" "DataModel" [] [])⟩
        ⟨⟨"proj", none⟩, ⟨"in.txt", some "txt"⟩, ⟨"out.rbxl", some "rbxl"⟩⟩ =
        (.error msg, []) ∧
      (msg = UNKNOWN_INPUT_KIND_ERR ∨ msg = UNKNOWN_OUTPUT_KIND_ERR) :=
  run_fails_before_processing_on_unknown_kind
    ⟨Except.ok (Snap.node "Folder" "Folder" [] []),
     Except.ok (RTree.node 0 "DataModel" "DataModel" [] [])⟩
    ⟨⟨"proj", none⟩, ⟨"in.txt", some "txt"⟩, ⟨"out.rbxl", some "rbxl"⟩⟩
    (Or.inl rfl)

/-! ## Claims about model decoding and output writing -/

/-- C3: decoding a model dom with exactly one top-level instance
succeeds and yields a tree whose own root carries that instance's class
and all of its properties directly, with its children re-parented onto
the new root; any other top-level instance count fails with a
descriptive error. -/
theorem process_model_dom_single_root (dom : RTree) :
    (∀ c, dom.children = [c] →
      ∃ t, process_model_dom dom = .ok t ∧
        t.className = c.className ∧ t.props = c.props ∧ t.children = c.children) ∧
    (dom.children.length ≠ 1 → process_model_dom dom = .error MODEL_SHAPE_ERR) := by
  constructor
  · intro c hc
    refine ⟨.node 0 c.className c.className c.props c.children, ?_, rfl, rfl, rfl⟩
    unfold process_model_dom
    rw [hc]
  · intro hlen
    unfold process_model_dom
    cases hch : dom.children with
    | nil => rfl
    | cons c rest =>
      cases rest with
      | nil => exact absurd (by rw [hch]; rfl) hlen
      | cons c2 rest2 => rfl

/-- C3 witness: a dom with one top-level instance decodes to a tree
rooted in that instance's class, properties and children; doms with
zero or two top-level instances fail. -/
theorem process_model_dom_single_root_witness :
    (∃ t, process_model_dom
        (RTree.node 0 "DataModel" "ROOT" []
          [RTree.node 1 "Model" "M" [("P", Variant.num 4)] [RTree.node 2 "Part" "C" [] []]]) =
        .ok t ∧
      t.className = "Model" ∧ t.props = [("P", Variant.num 4)] ∧
      t.children = [RTree.node 2 "Part" "C" [] []]) ∧
    process_model_dom (RTree.node 0 "DataModel" "ROOT" [] []) = .error MODEL_SHAPE_ERR ∧
    process_model_dom
        (RTree.node 0 "DataModel" "ROOT" []
          [RTree.node 1 "Model" "A" [] [], RTree.node 2 "Model" "B" [] []]) =
      .error MODEL_SHAPE_ERR :=
  ⟨(process_model_dom_single_root
      (RTree.node 0 "DataModel" "ROOT" []
        [RTree.node 1 "Model" "M" [("P", Variant.num 4)] [RTree.node 2 "Part" "C" [] []]])).1
      (RTree.node 1 "Model" "M" [("P", Variant.num 4)] [RTree.node 2 "Part" "C" [] []]) rfl,
   (process_model_dom_single_root (RTree.node 0 "DataModel" "ROOT" [] [])).2 (by decide),
   (process_model_dom_single_root
      (RTree.node 0 "DataModel" "ROOT" []
        [RTree.node 1 "Model" "A" [] [], RTree.node 2 "Model" "B" [] []])).2 (by decide)⟩

/-- C10: for a decoded model dom with zero top-level instances,
`process_model_dom` takes the same error branch as the more-than-one
case and returns the error message that speaks of more than one
Instance at the Root, rather than a zero-specific message. -/
theorem process_model_dom_zero_children_message (r : Ref) (cl nm : String) (p : Props) :
    process_model_dom (RTree.node r cl nm p []) = .error MODEL_SHAPE_ERR ∧
    MODEL_SHAPE_ERR =
      "Rojo does not currently support models with more than one Instance at the Root!" :=
  ⟨rfl, rfl⟩

/-- C5: the output format determines the serialized root set — place
formats serialize the children of the tree's root as top-level
instances, model formats serialize the tree's own root as the single
root. -/
theorem write_tree_to_file_root_set (tree : RTree) :
    (write_tree_to_file tree FileKind.Rbxl).2 = tree.children.map RTree.ref ∧
    (write_tree_to_file tree FileKind.Rbxlx).2 = tree.children.map RTree.ref ∧
    (write_tree_to_file tree FileKind.Rbxm).2 = [tree.ref] ∧
    (write_tree_to_file tree FileKind.Rbxmx).2 = [tree.ref] :=
  ⟨rfl, rfl, rfl, rfl⟩

/-! ## Claims about error-message content -/

/-- A string is an infix of any string it is appended to. -/
theorem toList_infix_append (pre s : String) : s.toList <:+: (pre ++ s).toList :=
  ⟨pre.toList, [], by rw [List.append_nil]; exact (String.data_append pre s).symm⟩

set_option maxRecDepth 4000 in
/-- C6 counterexample: the error produced for an unrecognized input
extension is the fixed string `UNKNOWN_INPUT_KIND_ERR`, and the
offending file path ("in.txt" here) does not occur in it — so this
user-visible failure does not name the offending file path. -/
theorem unknown_input_error_lacks_path :
    (SyncCommand.run
        ⟨Except.ok (Snap.node "Folder" "Folder" [] []),
         Except.ok (RTree.node 0 "DataModel" "DataModel" [] [])⟩
        ⟨⟨"proj", none⟩, ⟨"in.txt", some "txt"⟩, ⟨"out.rbxl", some "rbxl"⟩⟩).1 =
      .error UNKNOWN_INPUT_KIND_ERR ∧
    ¬ ("in.txt".toList <:+: UNKNOWN_INPUT_KIND_ERR.toList) := by
  constructor
  · rfl
  · decide

set_option maxRecDepth 4000 in
/-- C6 amended: the unknown-extension errors name the expected format
set but not the offending file path, while codec-failure errors from
`read_dom` do name the offending file path. -/
theorem sync_error_messages_name_formats_or_path (p : SPath) :
    (".rbxl, .rbxlx, .rbxm, or .rbxmx".toList <:+: UNKNOWN_INPUT_KIND_ERR.toList) ∧
    (".rbxl, .rbxlx, .rbxm, or .rbxmx".toList <:+: UNKNOWN_OUTPUT_KIND_ERR.toList) ∧
    (∀ env : SyncEnv, ∀ msg : String, env.input_decode = .error msg →
      ∀ kind : FileKind, ∃ e, read_dom env p kind = .error e ∧
        p.display.toList <:+: e.toList) := by
  refine ⟨by decide, by decide, ?_⟩
  intro env msg hdec kind
  cases kind <;>
    exact ⟨_, by unfold read_dom; rw [hdec], toList_infix_append _ _⟩

/-- C6 amended witness: at a concrete path and a concrete failing
decode, the binary-place error message contains the path. -/
theorem sync_error_messages_name_formats_or_path_witness :
    ∃ e, read_dom ⟨Except.ok (Snap.node "Folder" "Folder" [] []), Except.error "bad bytes"⟩
        ⟨"game.rbxl", some "rbxl"⟩ FileKind.Rbxl = .error e ∧
      "game.rbxl".toList <:+: e.toList :=
  (sync_error_messages_name_formats_or_path ⟨"game.rbxl", some "rbxl"⟩).2.2
    ⟨Except.ok (Snap.node "Folder" "Folder" [] []), Except.error "bad bytes"⟩
    "bad bytes" rfl FileKind.Rbxl

/-! ## Structural lemmas about the modelled tree operations -/

/-- Strong induction over trees by child membership. -/
theorem RTree.inductionOn {motive : RTree → Prop}
    (h : ∀ r cl nm p ch, (∀ t, t ∈ ch → motive t) → motive (.node r cl nm p ch)) :
    ∀ t, motive t
  | .node r cl nm p ch => h r cl nm p ch (fun t ht => RTree.inductionOn h t)
termination_by t => sizeOf t
decreasing_by
  have := List.sizeOf_lt_of_mem ht
  simp
  omega

/-- Strong induction over snapshots by child membership. -/
theorem Snap.snapInductionOn {motive : Snap → Prop}
    (h : ∀ cl nm p ch, (∀ s, s ∈ ch → motive s) → motive (.node cl nm p ch)) :
    ∀ s, motive s
  | .node cl nm p ch => h cl nm p ch (fun s hs => Snap.snapInductionOn h s)
termination_by s => sizeOf s
decreasing_by
  have := List.sizeOf_lt_of_mem hs
  simp
  omega

theorem findRefList_append (l1 l2 : List RTree) (Y : Ref) :
    RTree.findRefList (l1 ++ l2) Y =
      match RTree.findRefList l1 Y with
      | some n => some n
      | none => RTree.findRefList l2 Y := by
  induction l1 with
  | nil => simp [RTree.findRefList]
  | cons t rest ih =>
    simp only [List.cons_append, RTree.findRefList]
    cases RTree.findRef t Y <;> simp [ih]

theorem findRefList_isSome_iff (l : List RTree) (Y : Ref)
    (h : ∀ t ∈ l, ((RTree.findRef t Y).isSome ↔ Y ∈ t.refs)) :
    ((RTree.findRefList l Y).isSome ↔ Y ∈ RTree.refsList l) := by
  induction l with
  | nil => simp [RTree.findRefList, RTree.refsList]
  | cons t rest ih =>
    simp only [RTree.findRefList, RTree.refsList, List.mem_append]
    have ht := h t (by simp)
    have ih2 := ih (fun u hu => h u (by simp [hu]))
    cases hf : RTree.findRef t Y with
    | some n =>
      rw [hf] at ht
      simp at ht
      simp [ht]
    | none =>
      rw [hf] at ht
      simp at ht
      simp [ht, ih2]

theorem findRef_isSome_iff (t : RTree) (Y : Ref) :
    (RTree.findRef t Y).isSome ↔ Y ∈ t.refs := by
  induction t using RTree.inductionOn with
  | _ r cl nm p ch ih =>
    simp only [RTree.findRef, RTree.refs]
    by_cases hr : r = Y
    · simp [hr]
    · simp only [hr, if_false, List.mem_cons]
      rw [findRefList_isSome_iff ch Y ih]
      constructor
      · exact Or.inr
      · rintro (h | h)
        · exact absurd h.symm hr
        · exact h

theorem findRef_eq_none_of_lt (t : RTree) (Y : Ref) (h : ∀ r ∈ t.refs, r < Y) :
    RTree.findRef t Y = none := by
  rw [← Option.not_isSome_iff_eq_none, findRef_isSome_iff]
  intro hmem
  exact absurd rfl (Nat.ne_of_lt (h Y hmem))

theorem findRefList_ref (l : List RTree) (Y : Ref)
    (h : ∀ t ∈ l, ∀ m, RTree.findRef t Y = some m → m.ref = Y) :
    ∀ n, RTree.findRefList l Y = some n → n.ref = Y := by
  induction l with
  | nil => intro n hn; cases hn
  | cons t rest ih =>
    intro n hn
    simp only [RTree.findRefList] at hn
    cases hf : RTree.findRef t Y with
    | some m =>
      rw [hf] at hn
      cases hn
      exact h t (by simp) n hf
    | none =>
      rw [hf] at hn
      exact ih (fun u hu => h u (by simp [hu])) n hn

theorem findRef_ref (t : RTree) (Y : Ref) :
    ∀ n, RTree.findRef t Y = some n → n.ref = Y := by
  induction t using RTree.inductionOn with
  | _ r cl nm p ch ih =>
    intro n hn
    simp only [RTree.findRef] at hn
    by_cases hr : r = Y
    · rw [if_pos hr] at hn
      cases hn
      exact hr
    · rw [if_neg hr] at hn
      exact findRefList_ref ch Y ih n hn

theorem updateTree_props (t : RTree) (i : Ref) (ds : List (String × Option Variant)) :
    (updateTree t i ds).props =
      if t.ref = i then applyDeltas t.props ds else t.props := by
  cases t
  simp [updateTree, RTree.props, RTree.ref]

theorem updateTreeList_findRefList (l : List RTree) (i : Ref)
    (ds : List (String × Option Variant)) (Y : Ref)
    (h : ∀ t ∈ l, (updateTree t i ds).findRef Y =
      (RTree.findRef t Y).map (fun n => updateTree n i ds)) :
    RTree.findRefList (updateTreeList l i ds) Y =
      (RTree.findRefList l Y).map (fun n => updateTree n i ds) := by
  induction l with
  | nil => simp [updateTreeList, RTree.findRefList]
  | cons t rest ih =>
    simp only [updateTreeList, RTree.findRefList]
    rw [h t (by simp)]
    cases hf : RTree.findRef t Y with
    | some n => simp
    | none => simp [ih (fun u hu => h u (by simp [hu]))]

theorem updateTree_findRef (t : RTree) (i : Ref) (ds : List (String × Option Variant)) (Y : Ref) :
    (updateTree t i ds).findRef Y =
      (RTree.findRef t Y).map (fun n => updateTree n i ds) := by
  induction t using RTree.inductionOn with
  | _ r cl nm p ch ih =>
    by_cases hr : r = Y
    · subst hr
      simp [updateTree, RTree.findRef]
    · simp only [updateTree, RTree.findRef, hr, if_false]
      exact updateTreeList_findRefList ch i ds Y ih

theorem updateTreeList_refsList (l : List RTree) (i : Ref)
    (ds : List (String × Option Variant))
    (h : ∀ t ∈ l, (updateTree t i ds).refs = t.refs) :
    RTree.refsList (updateTreeList l i ds) = RTree.refsList l := by
  induction l with
  | nil => rfl
  | cons t rest ih =>
    simp only [updateTreeList, RTree.refsList]
    rw [h t (by simp), ih (fun u hu => h u (by simp [hu]))]

theorem updateTree_refs (t : RTree) (i : Ref) (ds : List (String × Option Variant)) :
    (updateTree t i ds).refs = t.refs := by
  induction t using RTree.inductionOn with
  | _ r cl nm p ch ih =>
    simp only [updateTree, RTree.refs]
    rw [updateTreeList_refsList ch i ds ih]

theorem refsList_append (l1 l2 : List RTree) :
    RTree.refsList (l1 ++ l2) = RTree.refsList l1 ++ RTree.refsList l2 := by
  induction l1 with
  | nil => rfl
  | cons t rest ih => simp only [List.cons_append, RTree.refsList, List.append_eq, ih,
      List.append_assoc]

theorem insertUnder_props (t : RTree) (p : Ref) (c : RTree) :
    (insertUnder t p c).props = t.props ∧ (insertUnder t p c).ref = t.ref := by
  cases t
  simp only [insertUnder]
  split <;> simp [RTree.props, RTree.ref]

theorem insertUnderList_findRefList (l : List RTree) (p : Ref) (c : RTree) (Y : Ref)
    (h : ∀ t ∈ l, (insertUnder t p c).findRef Y =
      (RTree.findRef t Y).map (fun n => insertUnder n p c)) :
    RTree.findRefList (insertUnderList l p c) Y =
      (RTree.findRefList l Y).map (fun n => insertUnder n p c) := by
  induction l with
  | nil => simp [insertUnderList, RTree.findRefList]
  | cons t rest ih =>
    simp only [insertUnderList, RTree.findRefList]
    rw [h t (by simp)]
    cases hf : RTree.findRef t Y with
    | some n => simp
    | none => simp [ih (fun u hu => h u (by simp [hu]))]

theorem insertUnder_findRef (t : RTree) (p : Ref) (c : RTree) (Y : Ref)
    (hc : RTree.findRef c Y = none) :
    (insertUnder t p c).findRef Y =
      (RTree.findRef t Y).map (fun n => insertUnder n p c) := by
  induction t using RTree.inductionOn with
  | _ r cl nm pr ch ih =>
    by_cases hr : r = Y
    · subst hr
      simp only [insertUnder]
      split <;> simp [RTree.findRef, insertUnder, *]
    · simp only [insertUnder]
      by_cases hp : r = p
      · rw [if_pos hp]
        simp only [RTree.findRef, if_neg hr]
        rw [findRefList_append, insertUnderList_findRefList ch p c Y ih]
        cases hf : RTree.findRefList ch Y with
        | some n => simp
        | none => simp [RTree.findRefList, hc]
      · rw [if_neg hp]
        simp only [RTree.findRef, if_neg hr]
        exact insertUnderList_findRefList ch p c Y ih

theorem insertUnderList_refsList_sub (l : List RTree) (p : Ref) (c : RTree)
    (h : ∀ t ∈ l, ∀ r, r ∈ (insertUnder t p c).refs → r ∈ t.refs ∨ r ∈ c.refs) :
    ∀ r, r ∈ RTree.refsList (insertUnderList l p c) →
      r ∈ RTree.refsList l ∨ r ∈ c.refs := by
  induction l with
  | nil => intro r hr; cases hr
  | cons t rest ih =>
    intro r hr
    simp only [insertUnderList, RTree.refsList, List.mem_append] at hr ⊢
    rcases hr with hr | hr
    · rcases h t (by simp) r hr with hr2 | hr2
      · exact Or.inl (Or.inl hr2)
      · exact Or.inr hr2
    · rcases ih (fun u hu => h u (by simp [hu])) r hr with hr2 | hr2
      · exact Or.inl (Or.inr hr2)
      · exact Or.inr hr2

theorem insertUnder_refs_sub (t : RTree) (p : Ref) (c : RTree) :
    ∀ r, r ∈ (insertUnder t p c).refs → r ∈ t.refs ∨ r ∈ c.refs := by
  induction t using RTree.inductionOn with
  | _ r0 cl nm pr ch ih =>
    intro r hr
    simp only [insertUnder] at hr
    by_cases hp : r0 = p
    · rw [if_pos hp] at hr
      simp only [RTree.refs, List.mem_cons, refsList_append] at hr
      rcases hr with hr | hr
      · exact Or.inl (by simp [RTree.refs, hr])
      · rcases List.mem_append.mp hr with hr2 | hr2
        · rcases insertUnderList_refsList_sub ch p c ih r hr2 with h2 | h2
          · exact Or.inl (by simp [RTree.refs, h2])
          · exact Or.inr h2
        · simp only [RTree.refsList, List.append_nil] at hr2
          exact Or.inr hr2
    · rw [if_neg hp] at hr
      simp only [RTree.refs, List.mem_cons] at hr
      rcases hr with hr | hr
      · exact Or.inl (by simp [RTree.refs, hr])
      · rcases insertUnderList_refsList_sub ch p c ih r hr with h2 | h2
        · exact Or.inl (by simp [RTree.refs, h2])
        · exact Or.inr h2

theorem insertUnder_refs_mem (t : RTree) (p : Ref) (c : RTree) :
    ∀ r, r ∈ t.refs → r ∈ (insertUnder t p c).refs := by
  induction t using RTree.inductionOn with
  | _ r0 cl nm pr ch ih =>
    intro r hr
    simp only [RTree.refs, List.mem_cons] at hr
    have hlist : r ∈ RTree.refsList ch → r ∈ RTree.refsList (insertUnderList ch p c) := by
      intro h
      clear hr
      induction ch with
      | nil => cases h
      | cons u rest ihu =>
        simp only [RTree.refsList, List.mem_append, insertUnderList] at h ⊢
        rcases h with h | h
        · exact Or.inl (ih u (by simp) r h)
        · exact Or.inr (ihu (fun v hv => ih v (by simp [hv])) h)
    simp only [insertUnder]
    by_cases hp : r0 = p
    · rw [if_pos hp]
      simp only [RTree.refs, List.mem_cons, refsList_append]
      rcases hr with hr | hr
      · exact Or.inl hr
      · exact Or.inr (List.mem_append.mpr (Or.inl (hlist hr)))
    · rw [if_neg hp]
      simp only [RTree.refs, List.mem_cons]
      rcases hr with hr | hr
      · exact Or.inl hr
      · exact Or.inr (hlist hr)

theorem materializeList_bounds (ch : List Snap)
    (h : ∀ s ∈ ch, ∀ n, n ≤ (materialize s n).2 ∧
      ∀ r ∈ (materialize s n).1.refs, n ≤ r ∧ r < (materialize s n).2) :
    ∀ n, n ≤ (materializeList ch n).2 ∧
      ∀ r ∈ RTree.refsList (materializeList ch n).1, n ≤ r ∧ r < (materializeList ch n).2 := by
  induction ch with
  | nil =>
    intro n
    refine ⟨le_refl n, ?_⟩
    intro r hr
    cases hr
  | cons s rest ih =>
    intro n
    obtain ⟨h1, h2⟩ := h s (by simp) n
    cases hm : materialize s n with
    | mk m n2 =>
      rw [hm] at h1 h2
      obtain ⟨h3, h4⟩ := ih (fun u hu => h u (by simp [hu])) n2
      cases hml : materializeList rest n2 with
      | mk ms n3 =>
        rw [hml] at h3 h4
        simp only [materializeList, hm, hml]
        refine ⟨le_trans h1 h3, ?_⟩
        intro r hr
        simp only [RTree.refsList, List.mem_append] at hr
        rcases hr with hr | hr
        · obtain ⟨hr1, hr2⟩ := h2 r hr
          exact ⟨hr1, lt_of_lt_of_le hr2 h3⟩
        · obtain ⟨hr1, hr2⟩ := h4 r hr
          exact ⟨le_trans h1 hr1, hr2⟩

theorem materialize_bounds (s : Snap) :
    ∀ n, n ≤ (materialize s n).2 ∧
      ∀ r ∈ (materialize s n).1.refs, n ≤ r ∧ r < (materialize s n).2 := by
  induction s using Snap.snapInductionOn with
  | _ cl nm p ch ih =>
    intro n
    obtain ⟨h1, h2⟩ := materializeList_bounds ch ih (n + 1)
    cases hml : materializeList ch (n + 1) with
    | mk ms n2 =>
      rw [hml] at h1 h2
      have hmat : materialize (Snap.node cl nm p ch) n = (.node n cl nm p ms, n2) := by
        simp [materialize, hml]
      rw [hmat]
      refine ⟨(by omega : n ≤ n2), ?_⟩
      intro r hr
      replace hr : r ∈ (RTree.node n cl nm p ms).refs := hr
      simp only [RTree.refs, List.mem_cons] at hr
      show n ≤ r ∧ r < n2
      rcases hr with hr | hr
      · refine ⟨Nat.le_of_eq hr.symm, ?_⟩
        rw [hr]
        exact Nat.lt_of_succ_le h1
      · obtain ⟨hr1, hr2⟩ := h2 r hr
        exact ⟨Nat.le_of_succ_le hr1, hr2⟩

theorem refsList_le_maxRefList (l : List RTree)
    (h : ∀ t ∈ l, ∀ r ∈ t.refs, r ≤ t.maxRef) :
    ∀ r ∈ RTree.refsList l, r ≤ RTree.maxRefList l := by
  induction l with
  | nil => intro r hr; cases hr
  | cons t rest ih =>
    intro r hr
    simp only [RTree.refsList, List.mem_append] at hr
    simp only [RTree.maxRefList]
    rcases hr with hr | hr
    · exact le_trans (h t (by simp) r hr) (le_max_left _ _)
    · exact le_trans (ih (fun u hu => h u (by simp [hu])) r hr) (le_max_right _ _)

theorem mem_refs_le_maxRef (t : RTree) : ∀ r ∈ t.refs, r ≤ t.maxRef := by
  induction t using RTree.inductionOn with
  | _ r0 cl nm p ch ih =>
    intro r hr
    simp only [RTree.refs, List.mem_cons] at hr
    simp only [RTree.maxRef]
    rcases hr with hr | hr
    · exact hr ▸ le_max_left _ _
    · exact le_trans (refsList_le_maxRefList ch ih r hr) (le_max_right _ _)

theorem lookupProp_setProp_ne (ps : Props) (k : String) (v : Variant) (P : String)
    (h : k ≠ P) : lookupProp (setProp ps k v) P = lookupProp ps P := by
  induction ps with
  | nil => simp [setProp, lookupProp, h]
  | cons kv rest ih =>
    obtain ⟨k0, v0⟩ := kv
    simp only [setProp]
    by_cases hk : k0 = k
    · subst hk
      simp only [if_pos rfl, lookupProp]
      rw [if_neg h, if_neg h]
    · rw [if_neg hk]
      simp only [lookupProp]
      by_cases hp : k0 = P
      · rw [if_pos hp, if_pos hp]
      · rw [if_neg hp, if_neg hp, ih]

theorem lookupProp_clearProp_ne (ps : Props) (k P : String) (h : k ≠ P) :
    lookupProp (clearProp ps k) P = lookupProp ps P := by
  induction ps with
  | nil => rfl
  | cons kv rest ih =>
    obtain ⟨k0, v0⟩ := kv
    by_cases hk : k0 = k
    · have hstep : clearProp ((k0, v0) :: rest) k = clearProp rest k := by
        simp [clearProp, List.filter_cons, hk]
      rw [hstep, ih]
      simp only [lookupProp]
      rw [if_neg (by rw [hk]; exact h)]
    · have hstep : clearProp ((k0, v0) :: rest) k = (k0, v0) :: clearProp rest k := by
        simp [clearProp, List.filter_cons, hk]
      rw [hstep]
      simp only [lookupProp]
      by_cases hp : k0 = P
      · rw [if_pos hp, if_pos hp]
      · rw [if_neg hp, if_neg hp, ih]

theorem lookupProp_applyDeltas_ne (ds : List (String × Option Variant)) (ps : Props)
    (P : String) (h : ∀ kv ∈ ds, kv.1 ≠ P) :
    lookupProp (applyDeltas ps ds) P = lookupProp ps P := by
  induction ds generalizing ps with
  | nil => rfl
  | cons kv rest ih =>
    obtain ⟨k, d⟩ := kv
    have hk : k ≠ P := h (k, d) (by simp)
    cases d with
    | some v =>
      show lookupProp (applyDeltas (setProp ps k v) rest) P = _
      rw [ih _ (fun u hu => h u (by simp [hu])), lookupProp_setProp_ne _ _ _ _ hk]
    | none =>
      show lookupProp (applyDeltas (clearProp ps k) rest) P = _
      rw [ih _ (fun u hu => h u (by simp [hu])), lookupProp_clearProp_ne _ _ _ hk]

theorem propDiff_isSome_key_mem (d e : Props) :
    ∀ kv ∈ propDiff d e, kv.2.isSome = true → kv.1 ∈ d.map Prod.fst := by
  intro kv hkv hs
  simp only [propDiff, List.mem_append] at hkv
  rcases hkv with hkv | hkv
  · obtain ⟨⟨k, v⟩, hk, rfl⟩ := List.mem_map.mp hkv
    exact List.mem_map.mpr ⟨(k, v), (List.mem_filter.mp hk).1, rfl⟩
  · obtain ⟨⟨k, v⟩, _, rfl⟩ := List.mem_map.mp hkv
    simp at hs

theorem snapKeysList_mem (s : Snap) (sch : List Snap) (hs : s ∈ sch) :
    ∀ k ∈ snapKeys s, k ∈ snapKeysList sch := by
  induction sch with
  | nil => cases hs
  | cons s0 rest ih =>
    intro k hk
    simp only [snapKeysList, List.mem_append]
    rcases List.mem_cons.mp hs with h | h
    · exact Or.inl (h ▸ hk)
    · exact Or.inr (ih h k hk)

theorem diffChildren_updates_keys (sch : List Snap)
    (h : ∀ s ∈ sch, ∀ t u kv, u ∈ (compute_patch_set s t).updated_instances →
      kv ∈ u.changed_properties → kv.2.isSome = true → kv.1 ∈ snapKeys s) :
    ∀ ex parent u kv, u ∈ (diffChildren sch ex parent).updated_instances →
      kv ∈ u.changed_properties → kv.2.isSome = true → kv.1 ∈ snapKeysList sch := by
  induction sch with
  | nil =>
    intro ex parent u kv hu
    simp [diffChildren] at hu
  | cons s rest ih =>
    intro ex parent u kv hu hkv hs
    simp only [diffChildren] at hu
    cases hf : findPair s.className s.name ex with
    | some pr =>
      obtain ⟨t, ex2⟩ := pr
      rw [hf] at hu
      simp only [PatchSet.merge, List.mem_append] at hu
      simp only [snapKeysList, List.mem_append]
      rcases hu with hu | hu
      · exact Or.inl (h s (by simp) t u kv hu hkv hs)
      · exact Or.inr (ih (fun s2 hs2 => h s2 (by simp [hs2])) ex2 parent u kv hu hkv hs)
    | none =>
      rw [hf] at hu
      simp only [PatchSet.merge, List.nil_append] at hu
      simp only [snapKeysList, List.mem_append]
      exact Or.inr (ih (fun s2 hs2 => h s2 (by simp [hs2])) ex parent u kv hu hkv hs)

theorem compute_updates_keys (s : Snap) :
    ∀ t u kv, u ∈ (compute_patch_set s t).updated_instances →
      kv ∈ u.changed_properties → kv.2.isSome = true → kv.1 ∈ snapKeys s := by
  induction s using Snap.snapInductionOn with
  | _ cl nm sp sch ihs =>
    intro t u kv hu hkv hs
    cases t with
    | node r tcl tnm tp tch =>
      simp only [compute_patch_set, PatchSet.merge, List.mem_append] at hu
      simp only [snapKeys, List.mem_append]
      rcases hu with hu | hu
      · by_cases hd : propDiff sp tp = []
        · rw [if_pos hd] at hu
          cases hu
        · rw [if_neg hd] at hu
          rcases List.mem_singleton.mp hu with rfl
          exact Or.inl (propDiff_isSome_key_mem sp tp kv hkv hs)
      · exact Or.inr (diffChildren_updates_keys sch ihs tch r u kv hu hkv hs)

theorem filtered_updates_keys (s : Snap) (t : RTree) :
    ∀ u ∈ (syncPolicyFilter (compute_patch_set s t)).updated_instances,
      ∀ kv ∈ u.changed_properties, kv.1 ∈ snapKeys s := by
  intro u hu kv hkv
  simp only [syncPolicyFilter, List.mem_map] at hu
  obtain ⟨u0, hu0, rfl⟩ := hu
  simp only [List.mem_filter] at hkv
  exact compute_updates_keys s t u0 kv hu0 hkv.1 hkv.2

theorem applyUpdates_refs (us : List PatchUpdate) (t : RTree) :
    (applyUpdates t us).refs = t.refs := by
  induction us generalizing t with
  | nil => rfl
  | cons u rest ih =>
    show (applyUpdates (updateTree t u.id u.changed_properties) rest).refs = t.refs
    rw [ih, updateTree_refs]

theorem applyUpdates_propAt (us : List PatchUpdate) (t : RTree) (Y : Ref) (P : String)
    (h : ∀ u ∈ us, ∀ kv ∈ u.changed_properties, kv.1 ≠ P) :
    propAt (applyUpdates t us) Y P = propAt t Y P := by
  induction us generalizing t with
  | nil => rfl
  | cons u rest ih =>
    show propAt (applyUpdates (updateTree t u.id u.changed_properties) rest) Y P = _
    rw [ih _ (fun v hv => h v (by simp [hv]))]
    unfold propAt
    rw [updateTree_findRef]
    cases hf : t.findRef Y with
    | none => rfl
    | some n =>
      simp only [Option.map_some']
      rw [updateTree_props]
      by_cases hn : n.ref = u.id
      · rw [if_pos hn, lookupProp_applyDeltas_ne _ _ _ (h u (by simp))]
      · rw [if_neg hn]

theorem applyAdds_preserves (adds : List PatchAdd) (t : RTree) (n : Nat) (Y : Ref) (P : String)
    (hinv : ∀ r ∈ t.refs, r < n) (hY : Y ∈ t.refs) :
    propAt (applyAdds t adds n).1 Y P = propAt t Y P ∧
    Y ∈ (applyAdds t adds n).1.refs ∧
    ∀ r ∈ (applyAdds t adds n).1.refs, r < (applyAdds t adds n).2 := by
  induction adds generalizing t n with
  | nil => exact ⟨rfl, hY, hinv⟩
  | cons a rest ih =>
    cases hm : materialize a.snap n with
    | mk m n2 =>
      have hbounds := materialize_bounds a.snap n
      rw [hm] at hbounds
      obtain ⟨hn2, hrefs⟩ := hbounds
      have hYn : Y < n := hinv Y hY
      have hmnone : RTree.findRef m Y = none := by
        rw [← Option.not_isSome_iff_eq_none, findRef_isSome_iff]
        intro hmem
        exact (Nat.not_le.mpr hYn) (hrefs Y hmem).1
      have hstep_propAt : propAt (insertUnder t a.parent m) Y P = propAt t Y P := by
        unfold propAt
        rw [insertUnder_findRef t a.parent m Y hmnone]
        cases t.findRef Y with
        | none => rfl
        | some nd =>
          simp only [Option.map_some']
          rw [(insertUnder_props nd a.parent m).1]
      have hstep_mem : Y ∈ (insertUnder t a.parent m).refs :=
        insertUnder_refs_mem t a.parent m Y hY
      have hstep_inv : ∀ r ∈ (insertUnder t a.parent m).refs, r < n2 := by
        intro r hr
        rcases insertUnder_refs_sub t a.parent m r hr with h2 | h2
        · exact lt_of_lt_of_le (hinv r h2) hn2
        · exact (hrefs r h2).2
      obtain ⟨ih1, ih2, ih3⟩ := ih (insertUnder t a.parent m) n2 hstep_inv hstep_mem
      have happ : applyAdds t (a :: rest) n = applyAdds (insertUnder t a.parent m) rest n2 := by
        simp [applyAdds, hm]
      rw [happ]
      exact ⟨ih1.trans hstep_propAt, ih2, ih3⟩

/-! ## The sync command preserves foreign content -/

/-- C2: every instance of the input tree survives the sync merge, and
every property on an input-tree instance whose key does not occur in
the desired snapshot keeps exactly its old value (the sync policy drops
all removals and all Clear deltas, and Set deltas only carry snapshot
keys). -/
theorem sync_preserves_foreign_content (s : Snap) (t : RTree) :
    (∀ X, X ∈ t.refs → X ∈ (syncResult s t).refs) ∧
    (∀ Y P, Y ∈ t.refs → P ∉ snapKeys s →
      propAt (syncResult s t) Y P = propAt t Y P) := by
  have hsync : syncResult s t =
      applyUpdates
        (applyAdds t (syncPolicyFilter (compute_patch_set s t)).added_instances
          (t.maxRef + 1)).1
        (syncPolicyFilter (compute_patch_set s t)).updated_instances := by
    rfl
  have hinv : ∀ r ∈ t.refs, r < t.maxRef + 1 :=
    fun r hr => Nat.lt_succ_of_le (mem_refs_le_maxRef t r hr)
  constructor
  · intro X hX
    obtain ⟨_, h2, _⟩ :=
      applyAdds_preserves (syncPolicyFilter (compute_patch_set s t)).added_instances
        t (t.maxRef + 1) X "" hinv hX
    rw [hsync, applyUpdates_refs]
    exact h2
  · intro Y P hY hP
    obtain ⟨h1, _, _⟩ :=
      applyAdds_preserves (syncPolicyFilter (compute_patch_set s t)).added_instances
        t (t.maxRef + 1) Y P hinv hY
    rw [hsync, applyUpdates_propAt _ _ _ _ ?keys]
    · exact h1
    case keys =>
      intro u hu kv hkv heq
      exact hP (heq ▸ filtered_updates_keys s t u hu kv hkv)

/-- C2 witness: a concrete foreign instance (identifier 1) and foreign
property ("Foreign") survive a concrete sync unchanged. -/
theorem sync_preserves_foreign_content_witness :
    (1 : Ref) ∈ (RTree.node 0 "DataModel" "ROOT" []
        [RTree.node 1 "Folder" "Keep" [("Foreign", Variant.bool true)] []]).refs ∧
    "Foreign" ∉ snapKeys (Snap.node "DataModel" "ROOT" []
        [Snap.node "Folder" "Stuff" [("A", Variant.num 1)] []]) ∧
    (1 : Ref) ∈ (syncResult
        (Snap.node "DataModel" "ROOT" [] [Snap.node "Folder" "Stuff" [("A", Variant.num 1)] []])
        (RTree.node 0 "DataModel" "ROOT" []
          [RTree.node 1 "Folder" "Keep" [("Foreign", Variant.bool true)] []])).refs ∧
    propAt (syncResult
        (Snap.node "DataModel" "ROOT" [] [Snap.node "Folder" "Stuff" [("A", Variant.num 1)] []])
        (RTree.node 0 "DataModel" "ROOT" []
          [RTree.node 1 "Folder" "Keep" [("Foreign", Variant.bool true)] []]))
      1 "Foreign" = some (Variant.bool true) := by
  have hmem : (1 : Ref) ∈ (RTree.node 0 "DataModel" "ROOT" []
      [RTree.node 1 "Folder" "Keep" [("Foreign", Variant.bool true)] []]).refs := by
    simp [RTree.refs, RTree.refsList]
  have hkey : "Foreign" ∉ snapKeys (Snap.node "DataModel" "ROOT" []
      [Snap.node "Folder" "Stuff" [("A", Variant.num 1)] []]) := by
    simp [snapKeys, snapKeysList]
  obtain ⟨hpres, hprop⟩ := sync_preserves_foreign_content
    (Snap.node "DataModel" "ROOT" [] [Snap.node "Folder" "Stuff" [("A", Variant.num 1)] []])
    (RTree.node 0 "DataModel" "ROOT" []
      [RTree.node 1 "Folder" "Keep" [("Foreign", Variant.bool true)] []])
  refine ⟨hmem, hkey, hpres 1 hmem, ?_⟩
  rw [hprop 1 "Foreign" hmem hkey]
  rfl

/-! ## Lemmas for the idempotence theorem: matching and the diff engine -/

theorem findPair_eq_some (cl nm : String) (ex : List RTree) (t : RTree) (ex2 : List RTree)
    (h : findPair cl nm ex = some (t, ex2)) :
    ∃ pre post, ex = pre ++ t :: post ∧ ex2 = pre ++ post ∧
      (∀ e ∈ pre, ¬(e.className = cl ∧ e.name = nm)) ∧
      t.className = cl ∧ t.name = nm := by
  induction ex generalizing ex2 with
  | nil => cases h
  | cons e rest ih =>
    simp only [findPair] at h
    by_cases he : e.className = cl ∧ e.name = nm
    · rw [if_pos he] at h
      cases h
      exact ⟨[], rest, rfl, rfl, fun x hx => absurd hx (List.not_mem_nil x), he.1, he.2⟩
    · rw [if_neg he] at h
      cases hf : findPair cl nm rest with
      | some pr =>
        obtain ⟨u, rem⟩ := pr
        rw [hf] at h
        cases h
        obtain ⟨pre, post, h1, h2, h3, h4, h5⟩ := ih rem hf
        refine ⟨e :: pre, post, by rw [List.cons_append, h1], by rw [List.cons_append, h2],
          ?_, h4, h5⟩
        intro x hx
        rcases List.mem_cons.mp hx with rfl | hx
        · exact he
        · exact h3 x hx
      | none =>
        rw [hf] at h
        cases h

theorem findPair_eq_none (cl nm : String) (ex : List RTree)
    (h : findPair cl nm ex = none) :
    ∀ e ∈ ex, ¬(e.className = cl ∧ e.name = nm) := by
  induction ex with
  | nil => intro e he; cases he
  | cons e rest ih =>
    intro x hx
    simp only [findPair] at h
    by_cases he : e.className = cl ∧ e.name = nm
    · rw [if_pos he] at h; cases h
    · rw [if_neg he] at h
      rcases List.mem_cons.mp hx with rfl | hx
      · exact he
      · cases hf : findPair cl nm rest with
        | some pr => rw [hf] at h; cases h
        | none => exact ih hf x hx

theorem findPair_append_of_none (cl nm : String) (l1 l2 : List RTree)
    (h : ∀ e ∈ l1, ¬(e.className = cl ∧ e.name = nm)) :
    findPair cl nm (l1 ++ l2) =
      (findPair cl nm l2).map (fun pr => (pr.1, l1 ++ pr.2)) := by
  induction l1 with
  | nil =>
    cases hf : findPair cl nm l2 with
    | none => simp [hf]
    | some pr => simp [hf]
  | cons e rest ih =>
    simp only [List.cons_append, findPair, if_neg (h e (by simp))]
    rw [show rest.append l2 = rest ++ l2 from rfl,
      ih (fun x hx => h x (by simp [hx]))]
    cases findPair cl nm l2 with
    | none => rfl
    | some pr => rfl

theorem materialize_root (s : Snap) (n : Nat) :
    materialize s n =
      (RTree.node n s.className s.name s.props (materializeList s.children (n + 1)).1,
       (materializeList s.children (n + 1)).2) := by
  cases s with
  | node cl nm p ch =>
    simp only [materialize, Snap.className, Snap.name, Snap.props, Snap.children]

theorem lookupProp_mem_nodup (ps : Props) (k : String) (v : Variant)
    (hnd : (ps.map Prod.fst).Nodup) (hm : (k, v) ∈ ps) : lookupProp ps k = some v := by
  induction ps with
  | nil => cases hm
  | cons kv rest ih =>
    obtain ⟨k0, v0⟩ := kv
    simp only [List.map_cons, List.nodup_cons] at hnd
    simp only [lookupProp]
    rcases List.mem_cons.mp hm with heq | hm2
    · cases heq
      rw [if_pos rfl]
    · by_cases hk : k0 = k
      · subst hk
        exact absurd (List.mem_map.mpr ⟨(k0, v), hm2, rfl⟩) hnd.1
      · rw [if_neg hk]
        exact ih hnd.2 hm2

theorem lookupProp_isSome_of_mem_keys (ps : Props) (k : String)
    (hm : k ∈ ps.map Prod.fst) : (lookupProp ps k).isSome = true := by
  induction ps with
  | nil => cases hm
  | cons kv rest ih =>
    obtain ⟨k0, v0⟩ := kv
    simp only [lookupProp]
    by_cases hk : k0 = k
    · rw [if_pos hk]; rfl
    · rw [if_neg hk]
      rcases List.mem_cons.mp hm with heq | hm2
      · exact absurd heq.symm hk
      · exact ih hm2

theorem propDiff_self (ps : Props) (hnd : (ps.map Prod.fst).Nodup) :
    propDiff ps ps = [] := by
  unfold propDiff
  rw [List.filter_eq_nil_iff.mpr, List.filter_eq_nil_iff.mpr]
  · rfl
  · intro kv hkv
    simp only [decide_eq_true_eq]
    intro hnone
    rw [← Option.not_isSome_iff_eq_none] at hnone
    exact hnone (lookupProp_isSome_of_mem_keys ps kv.1
      (List.mem_map.mpr ⟨kv, hkv, rfl⟩))
  · intro kv hkv
    simp only [decide_eq_true_eq, ne_eq, not_not]
    exact lookupProp_mem_nodup ps kv.1 kv.2 hnd hkv

theorem snapWF_of_mem (ch : List Snap) (s : Snap) (hs : s ∈ ch)
    (h : snapWFList ch = true) : snapWF s = true := by
  induction ch with
  | nil => cases hs
  | cons s0 rest ih =>
    simp only [snapWFList, Bool.and_eq_true] at h
    rcases List.mem_cons.mp hs with rfl | hs2
    · exact h.1
    · exact ih hs2 h.2

theorem matchesChildrenB_materializeList (ch : List Snap)
    (h : ∀ s ∈ ch, ∀ n, MatchesB s (materialize s n).1 = true)
    (hwf : snapWFList ch = true) :
    ∀ n, MatchesChildrenB ch (materializeList ch n).1 = true := by
  induction ch with
  | nil => intro n; rfl
  | cons s rest ih =>
    intro n
    simp only [snapWFList, Bool.and_eq_true] at hwf
    cases hm : materialize s n with
    | mk m n2 =>
      cases hml : materializeList rest n2 with
      | mk ms n3 =>
        have hshape : materializeList (s :: rest) n = (m :: ms, n3) := by
          simp [materializeList, hm, hml]
        rw [hshape]
        have hmr := materialize_root s n
        rw [hm] at hmr
        have hmeq : m = RTree.node n s.className s.name s.props
            (materializeList s.children (n + 1)).1 := by
          have := congrArg Prod.fst hmr
          simpa using this
        have hclass : m.className = s.className := by rw [hmeq]; rfl
        have hname : m.name = s.name := by rw [hmeq]; rfl
        have hfp : findPair s.className s.name (m :: ms) = some (m, ms) := by
          simp only [findPair]
          rw [if_pos ⟨hclass, hname⟩]
        show MatchesChildrenB (s :: rest) (m :: ms) = true
        simp only [MatchesChildrenB, hfp, Bool.and_eq_true]
        constructor
        · have hx := h s (by simp) n
          rw [hm] at hx
          exact hx
        · have hx := ih (fun u hu n' => h u (by simp [hu]) n') hwf.2 n2
          rw [hml] at hx
          exact hx

theorem matB_materialize (s : Snap) :
    snapWF s = true → ∀ n, MatchesB s (materialize s n).1 = true := by
  induction s using Snap.snapInductionOn with
  | _ cl nm p ch ih =>
    intro hwf n
    simp only [snapWF, Bool.and_eq_true, decide_eq_true_eq] at hwf
    rw [materialize_root]
    show MatchesB (Snap.node cl nm p ch)
      (RTree.node n (Snap.node cl nm p ch).className (Snap.node cl nm p ch).name
        (Snap.node cl nm p ch).props
        (materializeList (Snap.node cl nm p ch).children (n + 1)).1) = true
    simp only [Snap.className, Snap.name, Snap.props, Snap.children]
    simp only [MatchesB, Bool.and_eq_true, decide_eq_true_eq]
    refine ⟨propDiff_self p hwf.1, ?_⟩
    exact matchesChildrenB_materializeList ch
      (fun u hu => ih u hu (snapWF_of_mem ch u hu hwf.2)) hwf.2 (n + 1)

theorem diffChildren_of_matches (sch : List Snap)
    (h : ∀ s ∈ sch, ∀ t, MatchesB s t = true → compute_patch_set s t = PatchSet.empty) :
    ∀ ex r, MatchesChildrenB sch ex = true → diffChildren sch ex r = PatchSet.empty := by
  induction sch with
  | nil =>
    intro ex r hm
    cases ex with
    | nil => rfl
    | cons e rest => cases hm
  | cons s rest ih =>
    intro ex r hm
    simp only [MatchesChildrenB] at hm
    cases hf : findPair s.className s.name ex with
    | none => rw [hf] at hm; cases hm
    | some pr =>
      obtain ⟨t, ex2⟩ := pr
      rw [hf] at hm
      simp only [Bool.and_eq_true] at hm
      simp only [diffChildren, hf]
      rw [h s (by simp) t hm.1, ih (fun u hu => h u (by simp [hu])) ex2 r hm.2]
      rfl

theorem compute_of_matches (s : Snap) :
    ∀ t, MatchesB s t = true → compute_patch_set s t = PatchSet.empty := by
  induction s using Snap.snapInductionOn with
  | _ cl nm sp sch ih =>
    intro t hm
    cases t with
    | node r tcl tnm tp tch =>
      simp only [MatchesB, Bool.and_eq_true, decide_eq_true_eq] at hm
      simp only [compute_patch_set, hm.1, if_pos rfl]
      rw [diffChildren_of_matches sch ih tch r hm.2]
      rfl

theorem lookupProp_setProp (ps : Props) (k : String) (v : Variant) (k' : String) :
    lookupProp (setProp ps k v) k' = if k = k' then some v else lookupProp ps k' := by
  induction ps with
  | nil =>
    simp only [setProp, lookupProp]
  | cons kv rest ih =>
    obtain ⟨k0, v0⟩ := kv
    simp only [setProp]
    by_cases hk : k0 = k
    · subst hk
      simp only [if_pos rfl, lookupProp]
      by_cases hp : k0 = k'
      · rw [if_pos hp, if_pos hp]
      · rw [if_neg hp, if_neg hp, if_neg hp]
    · rw [if_neg hk]
      simp only [lookupProp]
      by_cases hp : k0 = k'
      · rw [if_pos hp, if_pos hp]
        by_cases hkk : k = k'
        · exact absurd (hkk ▸ hp : k0 = k) hk
        · rw [if_neg hkk]
      · rw [if_neg hp, if_neg hp, ih]

theorem lookupProp_clearProp (ps : Props) (k k' : String) :
    lookupProp (clearProp ps k) k' = if k = k' then none else lookupProp ps k' := by
  by_cases hkk : k = k'
  · subst hkk
    rw [if_pos rfl]
    induction ps with
    | nil => rfl
    | cons kv rest ih =>
      obtain ⟨k0, v0⟩ := kv
      by_cases h0 : k0 = k
      · have : clearProp ((k0, v0) :: rest) k = clearProp rest k := by
          simp [clearProp, List.filter_cons, h0]
        rw [this, ih]
      · have : clearProp ((k0, v0) :: rest) k = (k0, v0) :: clearProp rest k := by
          simp [clearProp, List.filter_cons, h0]
        rw [this]
        simp only [lookupProp, if_neg h0]
        exact ih
  · rw [if_neg hkk]
    exact lookupProp_clearProp_ne ps k k' hkk

theorem applyDeltas_lookup (ds : List (String × Option Variant)) (ps : Props) (k : String) :
    lookupProp (applyDeltas ps ds) k =
      ds.foldl (fun acc kv => if kv.1 = k then kv.2 else acc) (lookupProp ps k) := by
  induction ds generalizing ps with
  | nil => rfl
  | cons kv rest ih =>
    obtain ⟨k0, d⟩ := kv
    cases d with
    | some v =>
      show lookupProp (applyDeltas (setProp ps k0 v) rest) k = _
      rw [ih, lookupProp_setProp]
      rfl
    | none =>
      show lookupProp (applyDeltas (clearProp ps k0) rest) k = _
      rw [ih, lookupProp_clearProp]
      rfl

theorem foldl_no_key (ds : List (String × Option Variant)) (k : String)
    (acc : Option Variant) (h : ∀ kv ∈ ds, kv.1 ≠ k) :
    ds.foldl (fun acc kv => if kv.1 = k then kv.2 else acc) acc = acc := by
  induction ds generalizing acc with
  | nil => rfl
  | cons kv rest ih =>
    simp only [List.foldl_cons, if_neg (h kv (by simp))]
    exact ih acc (fun u hu => h u (by simp [hu]))

theorem mem_setProp (ps : Props) (k' : String) (v : Variant) (k : String) (w : Variant)
    (h : (k, w) ∈ setProp ps k' v) : (k = k' ∧ w = v) ∨ (k, w) ∈ ps := by
  induction ps with
  | nil =>
    simp only [setProp, List.mem_singleton] at h
    cases h
    exact Or.inl ⟨rfl, rfl⟩
  | cons kv rest ih =>
    obtain ⟨k0, v0⟩ := kv
    simp only [setProp] at h
    by_cases h0 : k0 = k'
    · rw [if_pos h0] at h
      rcases List.mem_cons.mp h with heq | hm
      · cases heq
        exact Or.inl ⟨h0, rfl⟩
      · exact Or.inr (List.mem_cons.mpr (Or.inr hm))
    · rw [if_neg h0] at h
      rcases List.mem_cons.mp h with heq | hm
      · cases heq
        exact Or.inr (List.mem_cons.mpr (Or.inl rfl))
      · rcases ih hm with h1 | h1
        · exact Or.inl h1
        · exact Or.inr (List.mem_cons.mpr (Or.inr h1))

theorem mem_clearProp (ps : Props) (k' k : String) (w : Variant)
    (h : (k, w) ∈ clearProp ps k') : (k, w) ∈ ps ∧ k ≠ k' := by
  simp only [clearProp, List.mem_filter, decide_eq_true_eq] at h
  exact h

theorem not_mem_applyDeltas (ds : List (String × Option Variant)) (ps : Props) (k : String)
    (hset : ∀ v, (k, some v) ∉ ds)
    (hgone : (k, (none : Option Variant)) ∈ ds ∨ ∀ w, (k, w) ∉ ps) :
    ∀ w, (k, w) ∉ applyDeltas ps ds := by
  induction ds generalizing ps with
  | nil =>
    rcases hgone with hg | hg
    · cases hg
    · exact hg
  | cons kv rest ih =>
    obtain ⟨k0, d⟩ := kv
    cases d with
    | some v0 =>
      have hk0 : k0 ≠ k := by
        intro heq
        exact hset v0 (by rw [heq]; exact List.mem_cons.mpr (Or.inl rfl))
      show ∀ w, (k, w) ∉ applyDeltas (setProp ps k0 v0) rest
      refine ih (setProp ps k0 v0) (fun v hv => hset v (List.mem_cons.mpr (Or.inr hv))) ?_
      rcases hgone with hg | hg
      · rcases List.mem_cons.mp hg with heq | hg2
        · cases heq
        · exact Or.inl hg2
      · refine Or.inr ?_
        intro w hw
        rcases mem_setProp ps k0 v0 k w hw with h1 | h1
        · exact hk0 h1.1.symm
        · exact hg w h1
    | none =>
      show ∀ w, (k, w) ∉ applyDeltas (clearProp ps k0) rest
      refine ih (clearProp ps k0) (fun v hv => hset v (List.mem_cons.mpr (Or.inr hv))) ?_
      by_cases hk0 : k0 = k
      · subst hk0
        refine Or.inr ?_
        intro w hw
        exact (mem_clearProp ps k0 k0 w hw).2 rfl
      · rcases hgone with hg | hg
        · rcases List.mem_cons.mp hg with heq | hg2
          · cases heq
            exact absurd rfl hk0
          · exact Or.inl hg2
        · refine Or.inr ?_
          intro w hw
          exact hg w (mem_clearProp ps k0 k w hw).1

theorem foldl_setPart (sp tp : Props) (k : String) (v : Variant) (acc : Option Variant)
    (hnd : (sp.map Prod.fst).Nodup) (hm : (k, v) ∈ sp) :
    ((sp.filter (fun kv => decide (lookupProp tp kv.1 ≠ some kv.2))).map
        (fun kv => (kv.1, some kv.2))).foldl
      (fun acc kv => if kv.1 = k then kv.2 else acc) acc =
    if lookupProp tp k = some v then acc else some v := by
  induction sp generalizing acc with
  | nil => cases hm
  | cons kv0 rest ih =>
    obtain ⟨k0, v0⟩ := kv0
    simp only [List.map_cons, List.nodup_cons] at hnd
    by_cases hk : k0 = k
    · subst hk
      have hv : v0 = v := by
        rcases List.mem_cons.mp hm with heq | hm2
        · cases heq; rfl
        · exact absurd (List.mem_map.mpr ⟨(k0, v), hm2, rfl⟩) hnd.1
      subst hv
      have hnokey : ∀ kv ∈ (rest.filter
          (fun kv => decide (lookupProp tp kv.1 ≠ some kv.2))).map
            (fun kv => (kv.1, some kv.2)), kv.1 ≠ k0 := by
        intro kv hkv heq
        obtain ⟨kv2, hkv2, rfl⟩ := List.mem_map.mp hkv
        exact hnd.1 (List.mem_map.mpr ⟨kv2, (List.mem_filter.mp hkv2).1, heq⟩)
      by_cases hg : lookupProp tp k0 = some v0
      · rw [if_pos hg]
        rw [List.filter_cons_of_neg (by simp [hg])]
        exact foldl_no_key _ k0 acc hnokey
      · rw [if_neg hg]
        rw [List.filter_cons_of_pos (by simp [hg])]
        simp only [List.map_cons, List.foldl_cons, if_pos rfl]
        exact foldl_no_key _ k0 (some v0) hnokey
    · have hm2 : (k, v) ∈ rest := by
        rcases List.mem_cons.mp hm with heq | hm2
        · cases heq; exact absurd rfl hk
        · exact hm2
      by_cases hg : lookupProp tp k0 = some v0
      · rw [List.filter_cons_of_neg (by simp [hg])]
        exact ih acc hnd.2 hm2
      · rw [List.filter_cons_of_pos (by simp [hg])]
        simp only [List.map_cons, List.foldl_cons, if_neg hk]
        exact ih acc hnd.2 hm2

theorem propDiff_applyDeltas_self (sp tp : Props) (hnd : (sp.map Prod.fst).Nodup) :
    propDiff sp (applyDeltas tp (propDiff sp tp)) = [] := by
  have hA : ∀ k v, (k, v) ∈ sp →
      lookupProp (applyDeltas tp (propDiff sp tp)) k = some v := by
    intro k v hm
    rw [applyDeltas_lookup]
    unfold propDiff
    rw [List.foldl_append]
    have hclear : ∀ kv ∈ (tp.filter
        (fun kv => decide (lookupProp sp kv.1 = none))).map
          (fun kv => (kv.1, (none : Option Variant))), kv.1 ≠ k := by
      intro kv hkv heq
      obtain ⟨kv2, hkv2, rfl⟩ := List.mem_map.mp hkv
      have := (List.mem_filter.mp hkv2).2
      simp only [decide_eq_true_eq] at this
      rw [heq] at this
      rw [← Option.not_isSome_iff_eq_none] at this
      exact this (lookupProp_isSome_of_mem_keys sp k (List.mem_map.mpr ⟨(k, v), hm, rfl⟩))
    rw [foldl_no_key _ k _ hclear, foldl_setPart sp tp k v _ hnd hm]
    by_cases hg : lookupProp tp k = some v
    · rw [if_pos hg, hg]
    · rw [if_neg hg]
  have hB : ∀ k w, (k, w) ∈ applyDeltas tp (propDiff sp tp) →
      ¬(lookupProp sp k = none) := by
    intro k w hmem hnone
    refine not_mem_applyDeltas (propDiff sp tp) tp k ?_ ?_ w hmem
    · intro v hv
      unfold propDiff at hv
      rcases List.mem_append.mp hv with hv | hv
      · obtain ⟨kv2, hkv2, heq⟩ := List.mem_map.mp hv
        have hk2 : kv2.1 = k := congrArg Prod.fst heq
        have := lookupProp_isSome_of_mem_keys sp k
          (List.mem_map.mpr ⟨kv2, (List.mem_filter.mp hkv2).1, hk2⟩)
        rw [hnone] at this
        cases this
      · obtain ⟨kv2, _, heq⟩ := List.mem_map.mp hv
        cases heq
    · by_cases hex : ∃ w0, (k, w0) ∈ tp
      · obtain ⟨w0, hw0⟩ := hex
        refine Or.inl ?_
        unfold propDiff
        refine List.mem_append.mpr (Or.inr ?_)
        exact List.mem_map.mpr ⟨(k, w0), List.mem_filter.mpr ⟨hw0, by simp [hnone]⟩, rfl⟩
      · refine Or.inr ?_
        intro w2 hw2
        exact hex ⟨w2, hw2⟩
  unfold propDiff
  rw [List.filter_eq_nil_iff.mpr, List.filter_eq_nil_iff.mpr]
  · rfl
  · intro kv hkv
    simp only [decide_eq_true_eq]
    exact hB kv.1 kv.2 hkv
  · intro kv hkv
    simp only [decide_eq_true_eq, ne_eq, not_not]
    exact hA kv.1 kv.2 hkv

theorem ref_mem_refs (t : RTree) : t.ref ∈ t.refs := by
  cases t
  simp [RTree.ref, RTree.refs]

theorem rootRef_mem_refsList (l : List RTree) (e : RTree) (he : e ∈ l) :
    e.ref ∈ RTree.refsList l := by
  induction l with
  | nil => cases he
  | cons t rest ih =>
    simp only [RTree.refsList, List.mem_append]
    rcases List.mem_cons.mp he with rfl | he2
    · exact Or.inl (ref_mem_refs e)
    · exact Or.inr (ih he2)

theorem refs_mem_refsList (l : List RTree) (e : RTree) (he : e ∈ l) :
    ∀ x ∈ e.refs, x ∈ RTree.refsList l := by
  induction l with
  | nil => cases he
  | cons t rest ih =>
    intro x hx
    simp only [RTree.refsList, List.mem_append]
    rcases List.mem_cons.mp he with rfl | he2
    · exact Or.inl hx
    · exact Or.inr (ih he2 x hx)

theorem refs_nodup_of_mem (l : List RTree) (e : RTree) (he : e ∈ l)
    (h : (RTree.refsList l).Nodup) : e.refs.Nodup := by
  induction l with
  | nil => cases he
  | cons t rest ih =>
    simp only [RTree.refsList] at h
    rcases List.mem_cons.mp he with rfl | he2
    · exact h.of_append_left
    · exact ih he2 h.of_append_right

theorem rootRefs_nodup (l : List RTree) (h : (RTree.refsList l).Nodup) :
    (l.map RTree.ref).Nodup := by
  induction l with
  | nil => exact List.nodup_nil
  | cons t rest ih =>
    simp only [RTree.refsList] at h
    simp only [List.map_cons, List.nodup_cons]
    constructor
    · intro hmem
      obtain ⟨e, he, heq⟩ := List.mem_map.mp hmem
      have h1 : t.ref ∈ t.refs := ref_mem_refs t
      have h2 : t.ref ∈ RTree.refsList rest := heq ▸ rootRef_mem_refsList rest e he
      exact (List.disjoint_of_nodup_append h) h1 h2
    · exact ih h.of_append_right

theorem mem_eq_of_same_ref (l : List RTree) (hnd : (l.map RTree.ref).Nodup)
    (e e' : RTree) (he : e ∈ l) (he' : e' ∈ l) (hr : e.ref = e'.ref) : e = e' := by
  induction l with
  | nil => cases he
  | cons t rest ih =>
    simp only [List.map_cons, List.nodup_cons] at hnd
    rcases List.mem_cons.mp he with rfl | he2
    · rcases List.mem_cons.mp he' with rfl | he2'
      · rfl
      · exact absurd (hr ▸ List.mem_map.mpr ⟨e', he2', rfl⟩) hnd.1
    · rcases List.mem_cons.mp he' with rfl | he2'
      · exact absurd (hr ▸ List.mem_map.mpr ⟨e, he2, rfl⟩ : e'.ref ∈ _) hnd.1
      · exact ih hnd.2 he2 he2'

theorem replaceByRef_append (asg : List (Ref × RTree)) (gone : List Ref)
    (l1 l2 : List RTree) :
    replaceByRef asg gone (l1 ++ l2) =
      replaceByRef asg gone l1 ++ replaceByRef asg gone l2 := by
  induction l1 with
  | nil => rfl
  | cons e rest ih =>
    simp only [List.cons_append, replaceByRef]
    rw [show rest.append l2 = rest ++ l2 from rfl]
    by_cases hg : e.ref ∈ gone
    · rw [if_pos hg, if_pos hg, ih]
    · rw [if_neg hg, if_neg hg]
      cases asg.find? (fun pr => decide (pr.1 = e.ref)) with
      | some pr => simp [ih]
      | none => simp [ih]

theorem replaceByRef_cons_shadow (rf : Ref) (t2 : RTree) (asg : List (Ref × RTree))
    (gone : List Ref) (l : List RTree) (h : ∀ e ∈ l, e.ref ≠ rf) :
    replaceByRef ((rf, t2) :: asg) gone l = replaceByRef asg gone l := by
  induction l with
  | nil => rfl
  | cons e rest ih =>
    have hfind : ((rf, t2) :: asg).find? (fun pr => decide (pr.1 = e.ref)) =
        asg.find? (fun pr => decide (pr.1 = e.ref)) := by
      rw [List.find?_cons_of_neg]
      simp only [decide_eq_true_eq]
      exact fun heq => h e (by simp) heq.symm
    simp only [replaceByRef, hfind]
    by_cases hg : e.ref ∈ gone
    · rw [if_pos hg, if_pos hg, ih (fun u hu => h u (by simp [hu]))]
    · rw [if_neg hg, if_neg hg]
      cases asg.find? (fun pr => decide (pr.1 = e.ref)) with
      | some pr => simp [ih (fun u hu => h u (by simp [hu]))]
      | none => simp [ih (fun u hu => h u (by simp [hu]))]

theorem replaceByRef_all_gone (asg : List (Ref × RTree)) (gone : List Ref)
    (l : List RTree) (h : ∀ e ∈ l, e.ref ∈ gone) :
    replaceByRef asg gone l = [] := by
  induction l with
  | nil => rfl
  | cons e rest ih =>
    simp only [replaceByRef, if_pos (h e (by simp))]
    exact ih (fun u hu => h u (by simp [hu]))

theorem mergeExec_fields (s : Snap) (t : RTree) (n : Nat) :
    (mergeExec s t n).1.ref = t.ref ∧ (mergeExec s t n).1.className = t.className ∧
    (mergeExec s t n).1.name = t.name := by
  cases s with
  | node cl nm sp sch =>
    cases t with
    | node r tcl tnm tp tch =>
      simp only [mergeExec]
      cases hmc : mergeChildren sch tch n with
      | mk asg rest3 =>
        obtain ⟨addsT, remR, n2⟩ := rest3
        simp [RTree.ref, RTree.className, RTree.name]

theorem mergeChildren_remR_sub (sch : List Snap) :
    ∀ ex n asg addsT remR n3, mergeChildren sch ex n = (asg, addsT, remR, n3) →
      ∀ x ∈ remR, x ∈ ex.map RTree.ref := by
  induction sch with
  | nil =>
    intro ex n asg addsT remR n3 h x hx
    simp only [mergeChildren] at h
    cases h
    exact hx
  | cons s rest ih =>
    intro ex n asg addsT remR n3 h x hx
    simp only [mergeChildren] at h
    cases hf : findPair s.className s.name ex with
    | some pr =>
      obtain ⟨t, ex2⟩ := pr
      rw [hf] at h
      dsimp only at h
      cases hme : mergeExec s t n with
      | mk t2 n2 =>
        rw [hme] at h
        dsimp only at h
        cases hmc : mergeChildren rest ex2 n2 with
        | mk asg2 rest3 =>
          obtain ⟨addsT2, remR2, n32⟩ := rest3
          rw [hmc] at h
          dsimp only at h
          cases h
          obtain ⟨pre, post, hex, hex2, _, _, _⟩ :=
            findPair_eq_some s.className s.name ex t ex2 hf
          have := ih ex2 n2 asg2 addsT remR n3 hmc x hx
          rw [hex2] at this
          rw [hex]
          simp only [List.map_append, List.map_cons, List.mem_append, List.mem_cons] at this ⊢
          tauto
    | none =>
      rw [hf] at h
      dsimp only at h
      cases hm : materialize s n with
      | mk m n2 =>
        rw [hm] at h
        dsimp only at h
        cases hmc : mergeChildren rest ex n2 with
        | mk asg2 rest3 =>
          obtain ⟨addsT2, remR2, n32⟩ := rest3
          rw [hmc] at h
          dsimp only at h
          cases h
          exact ih ex n2 asg addsT2 remR n3 hmc x hx

theorem mergeChildren_asg_fields (sch : List Snap) :
    ∀ ex n asg addsT remR n3, mergeChildren sch ex n = (asg, addsT, remR, n3) →
      ∀ pr ∈ asg, ∃ e, e ∈ ex ∧ pr.1 = e.ref ∧ pr.2.className = e.className ∧
        pr.2.name = e.name ∧ pr.2.ref = e.ref := by
  induction sch with
  | nil =>
    intro ex n asg addsT remR n3 h pr hpr
    simp only [mergeChildren] at h
    cases h
    cases hpr
  | cons s rest ih =>
    intro ex n asg addsT remR n3 h pr hpr
    simp only [mergeChildren] at h
    cases hf : findPair s.className s.name ex with
    | some pr0 =>
      obtain ⟨t, ex2⟩ := pr0
      rw [hf] at h
      dsimp only at h
      cases hme : mergeExec s t n with
      | mk t2 n2 =>
        rw [hme] at h
        dsimp only at h
        cases hmc : mergeChildren rest ex2 n2 with
        | mk asg2 rest3 =>
          obtain ⟨addsT2, remR2, n32⟩ := rest3
          rw [hmc] at h
          dsimp only at h
          cases h
          obtain ⟨pre, post, hex, hex2, _, _, _⟩ :=
            findPair_eq_some s.className s.name ex t ex2 hf
          have htmem : t ∈ ex := by
            rw [hex]; exact List.mem_append.mpr (Or.inr (by simp))
          rcases List.mem_cons.mp hpr with rfl | hpr2
          · have hfe := mergeExec_fields s t n
            rw [hme] at hfe
            exact ⟨t, htmem, rfl, hfe.2.1, hfe.2.2, hfe.1⟩
          · obtain ⟨e, he, h1, h2, h3, h4⟩ := ih ex2 n2 asg2 addsT remR n3 hmc pr hpr2
            refine ⟨e, ?_, h1, h2, h3, h4⟩
            rw [hex]
            rw [hex2] at he
            simp only [List.mem_append, List.mem_cons] at he ⊢
            tauto
    | none =>
      rw [hf] at h
      dsimp only at h
      cases hm : materialize s n with
      | mk m n2 =>
        rw [hm] at h
        dsimp only at h
        cases hmc : mergeChildren rest ex n2 with
        | mk asg2 rest3 =>
          obtain ⟨addsT2, remR2, n32⟩ := rest3
          rw [hmc] at h
          dsimp only at h
          cases h
          exact ih ex n2 asg addsT2 remR n3 hmc pr hpr

theorem replaceByRef_keys (L : List RTree) (asg : List (Ref × RTree)) (gone : List Ref)
    (bigEx : List RTree) (hroots : (bigEx.map RTree.ref).Nodup)
    (hLsub : ∀ e ∈ L, e ∈ bigEx)
    (hasg : ∀ pr ∈ asg, ∃ e0, e0 ∈ bigEx ∧ pr.1 = e0.ref ∧
      pr.2.className = e0.className ∧ pr.2.name = e0.name) :
    ∀ e' ∈ replaceByRef asg gone L,
      ∃ e, e ∈ L ∧ e'.className = e.className ∧ e'.name = e.name := by
  induction L with
  | nil => intro e' he'; cases he'
  | cons e rest ih =>
    intro e' he'
    simp only [replaceByRef] at he'
    by_cases hg : e.ref ∈ gone
    · rw [if_pos hg] at he'
      obtain ⟨e0, h1, h2, h3⟩ := ih (fun u hu => hLsub u (by simp [hu])) e' he'
      exact ⟨e0, by simp [h1], h2, h3⟩
    · rw [if_neg hg] at he'
      cases hfind : asg.find? (fun pr => decide (pr.1 = e.ref)) with
      | some pr =>
        rw [hfind] at he'
        rcases List.mem_cons.mp he' with rfl | he2
        · have hmem := List.mem_of_find?_eq_some hfind
          have hpred := List.find?_some hfind
          simp only [decide_eq_true_eq] at hpred
          obtain ⟨e0, hbig, hr, hc, hn⟩ := hasg pr hmem
          have heq0 : e0 = e := mem_eq_of_same_ref bigEx hroots e0 e hbig
            (hLsub e (by simp)) (by rw [← hr, hpred])
          refine ⟨e, by simp, ?_, ?_⟩
          · rw [hc, heq0]
          · rw [hn, heq0]
        · obtain ⟨e0, h1, h2, h3⟩ := ih (fun u hu => hLsub u (by simp [hu])) e' he2
          exact ⟨e0, by simp [h1], h2, h3⟩
      | none =>
        rw [hfind] at he'
        rcases List.mem_cons.mp he' with rfl | he2
        · exact ⟨e', by simp, rfl, rfl⟩
        · obtain ⟨e0, h1, h2, h3⟩ := ih (fun u hu => hLsub u (by simp [hu])) e' he2
          exact ⟨e0, by simp [h1], h2, h3⟩

theorem mergeChildren_matchesChildren (sch : List Snap)
    (hstep : ∀ s ∈ sch, ∀ t n2, t.refs.Nodup → MatchesB s (mergeExec s t n2).1 = true)
    (hwf : snapWFList sch = true) :
    ∀ ex n asg addsT remR n3, mergeChildren sch ex n = (asg, addsT, remR, n3) →
      (RTree.refsList ex).Nodup →
      MatchesChildrenB sch (replaceByRef asg remR ex ++ addsT) = true := by
  induction sch with
  | nil =>
    intro ex n asg addsT remR n3 h hnd
    simp only [mergeChildren] at h
    cases h
    rw [replaceByRef_all_gone _ _ ex (fun e he => List.mem_map.mpr ⟨e, he, rfl⟩)]
    rfl
  | cons s rest ih =>
    intro ex n asg addsT remR n3 h hnd
    simp only [snapWFList, Bool.and_eq_true] at hwf
    simp only [mergeChildren] at h
    cases hf : findPair s.className s.name ex with
    | some pr0 =>
      obtain ⟨t, ex2⟩ := pr0
      rw [hf] at h
      dsimp only at h
      cases hme : mergeExec s t n with
      | mk t2 n2 =>
        rw [hme] at h
        dsimp only at h
        cases hmc : mergeChildren rest ex2 n2 with
        | mk asg2 rest3 =>
          obtain ⟨addsT2, remR2, n32⟩ := rest3
          rw [hmc] at h
          dsimp only at h
          cases h
          obtain ⟨pre, post, hex, hex2, hpre, htc, htn⟩ :=
            findPair_eq_some s.className s.name ex t ex2 hf
          have hroots : (ex.map RTree.ref).Nodup := rootRefs_nodup ex hnd
          have hroots2 : (List.map RTree.ref pre ++
              t.ref :: List.map RTree.ref post).Nodup := by
            have h0 := hroots
            rw [hex] at h0
            simpa [List.map_append] using h0
          have htpre : ∀ e ∈ pre, e.ref ≠ t.ref := by
            intro e he heq
            have h1 : t.ref ∈ List.map RTree.ref pre := by
              rw [← heq]
              exact List.mem_map.mpr ⟨e, he, rfl⟩
            exact (List.disjoint_of_nodup_append hroots2) h1 (by simp)
          have htpost : ∀ e ∈ post, e.ref ≠ t.ref := by
            intro e he heq
            have h1 : t.ref ∈ List.map RTree.ref post := by
              rw [← heq]
              exact List.mem_map.mpr ⟨e, he, rfl⟩
            exact (List.nodup_cons.mp hroots2.of_append_right).1 h1
          have hnd2 : (RTree.refsList ex2).Nodup := by
            rw [hex2, refsList_append]
            rw [hex, refsList_append] at hnd
            simp only [RTree.refsList] at hnd
            have hsub : (RTree.refsList pre ++ RTree.refsList post).Sublist
                (RTree.refsList pre ++ (t.refs ++ RTree.refsList post)) := by
              refine List.Sublist.append_left ?_ _
              exact List.sublist_append_right _ _
            exact hsub.nodup hnd
          have hremsub := mergeChildren_remR_sub rest ex2 n2 asg2 addsT remR n3 hmc
          have htgone : t.ref ∉ remR := by
            intro hin
            have h2 := hremsub t.ref hin
            rw [hex2] at h2
            simp only [List.map_append, List.mem_append] at h2
            rcases h2 with h2 | h2
            · obtain ⟨e, he, heq⟩ := List.mem_map.mp h2
              exact htpre e he heq
            · obtain ⟨e, he, heq⟩ := List.mem_map.mp h2
              exact htpost e he heq
          have hlist : replaceByRef ((t.ref, t2) :: asg2) remR ex =
              replaceByRef asg2 remR pre ++ t2 :: replaceByRef asg2 remR post := by
            rw [hex, replaceByRef_append]
            rw [replaceByRef_cons_shadow t.ref t2 asg2 remR pre htpre]
            congr 1
            show replaceByRef ((t.ref, t2) :: asg2) remR (t :: post) = _
            simp only [replaceByRef, if_neg htgone]
            rw [List.find?_cons_of_pos _ (by simp)]
            rw [replaceByRef_cons_shadow t.ref t2 asg2 remR post htpost]
          have hasgf := mergeChildren_asg_fields rest ex2 n2 asg2 addsT remR n3 hmc
          have hprekeys : ∀ e' ∈ replaceByRef asg2 remR pre,
              ¬(e'.className = s.className ∧ e'.name = s.name) := by
            intro e' he' hkey
            obtain ⟨e, he, hc, hn⟩ := replaceByRef_keys pre asg2 remR ex hroots
              (fun u hu => by rw [hex]; exact List.mem_append.mpr (Or.inl hu))
              (fun pr hpr => by
                obtain ⟨e0, he0, h1, h2, h3, _⟩ := hasgf pr hpr
                refine ⟨e0, ?_, h1, h2, h3⟩
                rw [hex]
                rw [hex2] at he0
                simp only [List.mem_append, List.mem_cons] at he0 ⊢
                tauto) e' he'
            exact hpre e he ⟨hc ▸ hkey.1, hn ▸ hkey.2⟩
          have ht2fields := mergeExec_fields s t n
          rw [hme] at ht2fields
          have hfp2 : findPair s.className s.name
              (replaceByRef ((t.ref, t2) :: asg2) remR ex ++ addsT) =
              some (t2, replaceByRef asg2 remR pre ++
                (replaceByRef asg2 remR post ++ addsT)) := by
            rw [hlist]
            rw [show (replaceByRef asg2 remR pre ++ t2 :: replaceByRef asg2 remR post)
                ++ addsT =
                replaceByRef asg2 remR pre ++ (t2 :: (replaceByRef asg2 remR post
                ++ addsT)) from by simp]
            rw [findPair_append_of_none s.className s.name _ _ hprekeys]
            show Option.map _ (findPair s.className s.name
              (t2 :: (replaceByRef asg2 remR post ++ addsT))) = _
            simp only [findPair]
            rw [if_pos ⟨ht2fields.2.1.trans htc, ht2fields.2.2.trans htn⟩]
            rfl
          show MatchesChildrenB (s :: rest)
            (replaceByRef ((t.ref, t2) :: asg2) remR ex ++ addsT) = true
          simp only [MatchesChildrenB, hfp2, Bool.and_eq_true]
          constructor
          · have hx := hstep s (by simp) t n
              (refs_nodup_of_mem ex t (by rw [hex]; simp) hnd)
            rw [hme] at hx
            exact hx
          · have heq : replaceByRef asg2 remR pre ++
                (replaceByRef asg2 remR post ++ addsT) =
                replaceByRef asg2 remR ex2 ++ addsT := by
              rw [hex2, replaceByRef_append, List.append_assoc]
            rw [heq]
            exact ih (fun u hu t' n' hn' => hstep u (by simp [hu]) t' n' hn') hwf.2
              ex2 n2 asg2 addsT remR n3 hmc hnd2
    | none =>
      rw [hf] at h
      dsimp only at h
      cases hm : materialize s n with
      | mk m n2 =>
        rw [hm] at h
        dsimp only at h
        cases hmc : mergeChildren rest ex n2 with
        | mk asg2 rest3 =>
          obtain ⟨addsT2, remR2, n32⟩ := rest3
          rw [hmc] at h
          dsimp only at h
          cases h
          have hroots : (ex.map RTree.ref).Nodup := rootRefs_nodup ex hnd
          have hnone := findPair_eq_none s.className s.name ex hf
          have hasgf := mergeChildren_asg_fields rest ex n2 asg addsT2 remR n3 hmc
          have hprekeys : ∀ e' ∈ replaceByRef asg remR ex,
              ¬(e'.className = s.className ∧ e'.name = s.name) := by
            intro e' he' hkey
            obtain ⟨e, he, hc, hn⟩ := replaceByRef_keys ex asg remR ex hroots
              (fun u hu => hu)
              (fun pr hpr => by
                obtain ⟨e0, he0, h1, h2, h3, _⟩ := hasgf pr hpr
                exact ⟨e0, he0, h1, h2, h3⟩) e' he'
            exact hnone e he ⟨hc ▸ hkey.1, hn ▸ hkey.2⟩
          have hmr := materialize_root s n
          rw [hm] at hmr
          have hmeq : m = RTree.node n s.className s.name s.props
              (materializeList s.children (n + 1)).1 := by
            have h2 := congrArg Prod.fst hmr
            simpa using h2
          have hfp2 : findPair s.className s.name
              (replaceByRef asg remR ex ++ m :: addsT2) =
              some (m, replaceByRef asg remR ex ++ addsT2) := by
            rw [findPair_append_of_none s.className s.name _ _ hprekeys]
            simp only [findPair]
            rw [if_pos ⟨by rw [hmeq]; rfl, by rw [hmeq]; rfl⟩]
            rfl
          show MatchesChildrenB (s :: rest)
            (replaceByRef asg remR ex ++ m :: addsT2) = true
          simp only [MatchesChildrenB, hfp2, Bool.and_eq_true]
          constructor
          · have hx := matB_materialize s hwf.1 n
            rw [hm] at hx
            exact hx
          · exact ih (fun u hu t' n' hn' => hstep u (by simp [hu]) t' n' hn') hwf.2
              ex n2 asg addsT2 remR n3 hmc hnd

theorem matB_mergeExec (s : Snap) :
    snapWF s = true → ∀ t n, t.refs.Nodup → MatchesB s (mergeExec s t n).1 = true := by
  induction s using Snap.snapInductionOn with
  | _ cl nm sp sch ih =>
    intro hwf t n hnd
    simp only [snapWF, Bool.and_eq_true, decide_eq_true_eq] at hwf
    cases t with
    | node r tcl tnm tp tch =>
      simp only [mergeExec]
      cases hmc : mergeChildren sch tch n with
      | mk asg rest3 =>
        obtain ⟨addsT, remR, n2⟩ := rest3
        show MatchesB (Snap.node cl nm sp sch)
          (RTree.node r tcl tnm (applyDeltas tp (propDiff sp tp))
            (replaceByRef asg remR tch ++ addsT)) = true
        simp only [MatchesB, Bool.and_eq_true, decide_eq_true_eq]
        constructor
        · exact propDiff_applyDeltas_self sp tp hwf.1
        · have hndch : (RTree.refsList tch).Nodup := by
            have h0 : ((RTree.node r tcl tnm tp tch).refs).Nodup := hnd
            simp only [RTree.refs] at h0
            exact h0.of_cons
          exact mergeChildren_matchesChildren sch
            (fun u hu t' n' hn' => ih u hu (snapWF_of_mem sch u hu hwf.2) t' n' hn')
            hwf.2 tch n asg addsT remR n2 hmc hndch

/-! ## Lemmas for the idempotence theorem: the patch applier -/

theorem updateTree_ref (t : RTree) (i : Ref) (ds : List (String × Option Variant)) :
    (updateTree t i ds).ref = t.ref := by
  cases t
  simp [updateTree, RTree.ref]

theorem removeRef_ref (t : RTree) (x : Ref) : (removeRef t x).ref = t.ref := by
  cases t
  simp [removeRef, RTree.ref]

theorem updateTreeList_noop (l : List RTree) (i : Ref) (ds : List (String × Option Variant))
    (h : ∀ t ∈ l, updateTree t i ds = t) : updateTreeList l i ds = l := by
  induction l with
  | nil => rfl
  | cons t rest ih =>
    simp only [updateTreeList]
    rw [h t (by simp), ih (fun u hu => h u (by simp [hu]))]

theorem updateTree_noop (t : RTree) (i : Ref) (ds : List (String × Option Variant))
    (h : i ∉ t.refs) : updateTree t i ds = t := by
  induction t using RTree.inductionOn with
  | _ r cl nm p ch ihc =>
    simp only [RTree.refs, List.mem_cons] at h
    push_neg at h
    have hr : ¬(r = i) := fun heq => h.1 heq.symm
    simp only [updateTree, if_neg hr]
    rw [updateTreeList_noop ch i ds
      (fun u hu => ihc u hu (fun hx => h.2 (refs_mem_refsList ch u hu i hx)))]

theorem insertUnderList_noop (l : List RTree) (p : Ref) (c : RTree)
    (h : ∀ t ∈ l, insertUnder t p c = t) : insertUnderList l p c = l := by
  induction l with
  | nil => rfl
  | cons t rest ih =>
    simp only [insertUnderList]
    rw [h t (by simp), ih (fun u hu => h u (by simp [hu]))]

theorem insertUnder_noop (t : RTree) (p : Ref) (c : RTree)
    (h : p ∉ t.refs) : insertUnder t p c = t := by
  induction t using RTree.inductionOn with
  | _ r cl nm pp ch ihc =>
    simp only [RTree.refs, List.mem_cons] at h
    push_neg at h
    have hr : ¬(r = p) := fun heq => h.1 heq.symm
    simp only [insertUnder, if_neg hr]
    rw [insertUnderList_noop ch p c
      (fun u hu => ihc u hu (fun hx => h.2 (refs_mem_refsList ch u hu p hx)))]

theorem removeRefList_noop (l : List RTree) (x : Ref)
    (hne : ∀ t ∈ l, t.ref ≠ x) (hno : ∀ t ∈ l, removeRef t x = t) :
    removeRefList l x = l := by
  induction l with
  | nil => rfl
  | cons t rest ih =>
    simp only [removeRefList, if_neg (hne t (by simp))]
    rw [hno t (by simp),
      ih (fun u hu => hne u (by simp [hu])) (fun u hu => hno u (by simp [hu]))]

theorem removeRef_noop (t : RTree) (x : Ref) (h : x ∉ t.refs) : removeRef t x = t := by
  induction t using RTree.inductionOn with
  | _ r cl nm p ch ihc =>
    simp only [RTree.refs, List.mem_cons] at h
    push_neg at h
    simp only [removeRef]
    congr 1
    refine removeRefList_noop ch x ?_ ?_
    · intro u hu heq
      exact h.2 (refs_mem_refsList ch u hu x (heq ▸ ref_mem_refs u))
    · intro u hu
      exact ihc u hu (fun hx => h.2 (refs_mem_refsList ch u hu x hx))

theorem updateTreeList_removeRefList_comm (l : List RTree) (x i : Ref)
    (ds : List (String × Option Variant))
    (h : ∀ t ∈ l, updateTree (removeRef t x) i ds = removeRef (updateTree t i ds) x) :
    updateTreeList (removeRefList l x) i ds = removeRefList (updateTreeList l i ds) x := by
  induction l with
  | nil => rfl
  | cons t rest ih =>
    simp only [removeRefList, updateTreeList]
    by_cases hx : t.ref = x
    · rw [if_pos hx, if_pos (by rw [updateTree_ref]; exact hx)]
      exact ih (fun u hu => h u (by simp [hu]))
    · rw [if_neg hx, if_neg (by rw [updateTree_ref]; exact hx)]
      simp only [updateTreeList]
      rw [h t (by simp), ih (fun u hu => h u (by simp [hu]))]

theorem updateTree_removeRef_comm (t : RTree) (x i : Ref)
    (ds : List (String × Option Variant)) :
    updateTree (removeRef t x) i ds = removeRef (updateTree t i ds) x := by
  induction t using RTree.inductionOn with
  | _ r cl nm p ch ihc =>
    simp only [removeRef, updateTree]
    rw [updateTreeList_removeRefList_comm ch x i ds ihc]

theorem updateTreeList_append (l1 l2 : List RTree) (i : Ref)
    (ds : List (String × Option Variant)) :
    updateTreeList (l1 ++ l2) i ds = updateTreeList l1 i ds ++ updateTreeList l2 i ds := by
  induction l1 with
  | nil => rfl
  | cons t rest ih =>
    simp only [List.cons_append, updateTreeList]
    rw [show rest.append l2 = rest ++ l2 from rfl, ih]

theorem removeRefList_append (l1 l2 : List RTree) (x : Ref) :
    removeRefList (l1 ++ l2) x = removeRefList l1 x ++ removeRefList l2 x := by
  induction l1 with
  | nil => rfl
  | cons t rest ih =>
    simp only [List.cons_append, removeRefList]
    rw [show rest.append l2 = rest ++ l2 from rfl]
    by_cases hx : t.ref = x
    · rw [if_pos hx, if_pos hx, ih]
    · rw [if_neg hx, if_neg hx]
      simp only [List.cons_append, ih]

theorem insertUnderList_append (l1 l2 : List RTree) (p : Ref) (c : RTree) :
    insertUnderList (l1 ++ l2) p c = insertUnderList l1 p c ++ insertUnderList l2 p c := by
  induction l1 with
  | nil => rfl
  | cons t rest ih =>
    simp only [List.cons_append, insertUnderList]
    rw [show rest.append l2 = rest ++ l2 from rfl, ih]

theorem updateTreeList_insertUnderList_comm (l : List RTree) (p : Ref) (c : RTree)
    (i : Ref) (ds : List (String × Option Variant))
    (h : ∀ t ∈ l, updateTree (insertUnder t p c) i ds = insertUnder (updateTree t i ds) p c) :
    updateTreeList (insertUnderList l p c) i ds =
      insertUnderList (updateTreeList l i ds) p c := by
  induction l with
  | nil => rfl
  | cons t rest ih =>
    simp only [insertUnderList, updateTreeList]
    rw [h t (by simp), ih (fun u hu => h u (by simp [hu]))]

theorem updateTree_insertUnder_comm (t : RTree) (p : Ref) (c : RTree) (i : Ref)
    (ds : List (String × Option Variant)) (hic : i ∉ c.refs) :
    updateTree (insertUnder t p c) i ds = insertUnder (updateTree t i ds) p c := by
  induction t using RTree.inductionOn with
  | _ r cl nm pp ch ihc =>
    by_cases hp : r = p
    · simp only [insertUnder, if_pos hp, updateTree, updateTreeList_append]
      simp only [updateTreeList]
      rw [updateTree_noop c i ds hic]
      rw [updateTreeList_insertUnderList_comm ch p c i ds ihc]
    · simp only [insertUnder, if_neg hp, updateTree]
      rw [updateTreeList_insertUnderList_comm ch p c i ds ihc]

theorem removeRefList_insertUnderList_comm (l : List RTree) (p : Ref) (c : RTree)
    (x : Ref) (h : ∀ t ∈ l, removeRef (insertUnder t p c) x = insertUnder (removeRef t x) p c) :
    removeRefList (insertUnderList l p c) x =
      insertUnderList (removeRefList l x) p c := by
  induction l with
  | nil => rfl
  | cons t rest ih =>
    simp only [insertUnderList, removeRefList]
    by_cases hx : t.ref = x
    · rw [if_pos (by rw [(insertUnder_props t p c).2]; exact hx), if_pos hx]
      exact ih (fun u hu => h u (by simp [hu]))
    · rw [if_neg (by rw [(insertUnder_props t p c).2]; exact hx), if_neg hx]
      simp only [insertUnderList]
      rw [h t (by simp), ih (fun u hu => h u (by simp [hu]))]

theorem removeRef_insertUnder_comm (t : RTree) (p : Ref) (c : RTree) (x : Ref)
    (hxc : x ∉ c.refs) :
    removeRef (insertUnder t p c) x = insertUnder (removeRef t x) p c := by
  induction t using RTree.inductionOn with
  | _ r cl nm pp ch ihc =>
    have hcref : c.ref ≠ x := fun heq => hxc (heq ▸ ref_mem_refs c)
    by_cases hp : r = p
    · simp only [insertUnder, if_pos hp, removeRef, removeRefList_append]
      simp only [removeRefList, if_neg hcref]
      rw [removeRef_noop c x hxc]
      rw [removeRefList_insertUnderList_comm ch p c x ihc]
    · simp only [insertUnder, if_neg hp, removeRef]
      rw [removeRefList_insertUnderList_comm ch p c x ihc]

theorem applyAdds_counter (as : List PatchAdd) :
    ∀ (t t' : RTree) (n : Nat), (applyAdds t as n).2 = (applyAdds t' as n).2 := by
  induction as with
  | nil => intro t t' n; rfl
  | cons a rest ih =>
    intro t t' n
    cases hm : materialize a.snap n with
    | mk c n2 =>
      show (applyAdds (insertUnder t a.parent (materialize a.snap n).1) rest
          (materialize a.snap n).2).2 = _
      rw [hm]
      rw [show (applyAdds t' (a :: rest) n).2 =
        (applyAdds (insertUnder t' a.parent (materialize a.snap n).1) rest
          (materialize a.snap n).2).2 from rfl, hm]
      exact ih _ _ n2

theorem applyAdds_counter_mono (as : List PatchAdd) :
    ∀ (t : RTree) (n : Nat), n ≤ (applyAdds t as n).2 := by
  induction as with
  | nil => intro t n; exact le_refl n
  | cons a rest ih =>
    intro t n
    cases hm : materialize a.snap n with
    | mk c n2 =>
      have h1 : n ≤ n2 := by
        have := (materialize_bounds a.snap n).1
        rw [hm] at this
        exact this
      show n ≤ (applyAdds (insertUnder t a.parent (materialize a.snap n).1) rest
          (materialize a.snap n).2).2
      rw [hm]
      exact le_trans h1 (ih _ n2)

theorem applyAdds_append (a1 a2 : List PatchAdd) :
    ∀ (t : RTree) (n : Nat), applyAdds t (a1 ++ a2) n =
      applyAdds (applyAdds t a1 n).1 a2 (applyAdds t a1 n).2 := by
  induction a1 with
  | nil => intro t n; rfl
  | cons a rest ih =>
    intro t n
    show applyAdds (insertUnder t a.parent (materialize a.snap n).1) (rest ++ a2)
        (materialize a.snap n).2 = _
    rw [ih]
    rfl

theorem applyUpdates_append (u1 u2 : List PatchUpdate) :
    ∀ (t : RTree), applyUpdates t (u1 ++ u2) = applyUpdates (applyUpdates t u1) u2 := by
  induction u1 with
  | nil => intro t; rfl
  | cons u rest ih => intro t; exact ih _

theorem applyRemoves_append (x1 x2 : List Ref) :
    ∀ (t : RTree), applyRemoves t (x1 ++ x2) = applyRemoves (applyRemoves t x1) x2 := by
  induction x1 with
  | nil => intro t; rfl
  | cons x rest ih => intro t; exact ih _

theorem applyAdds_updateTree (as : List PatchAdd) :
    ∀ (t : RTree) (n : Nat) (i : Ref) (ds : List (String × Option Variant)), i < n →
      (applyAdds (updateTree t i ds) as n).1 = updateTree (applyAdds t as n).1 i ds := by
  induction as with
  | nil => intro t n i ds _; rfl
  | cons a rest ih =>
    intro t n i ds hi
    cases hm : materialize a.snap n with
    | mk c n2 =>
      have hb := materialize_bounds a.snap n
      rw [hm] at hb
      have hic : i ∉ c.refs := fun hx => absurd (hb.2 i hx).1 (Nat.not_le.mpr hi)
      have h2 : i < n2 := lt_of_lt_of_le hi hb.1
      show (applyAdds (insertUnder (updateTree t i ds) a.parent
          (materialize a.snap n).1) rest (materialize a.snap n).2).1 = _
      rw [hm]
      rw [← updateTree_insertUnder_comm t a.parent c i ds hic]
      rw [ih _ n2 i ds h2]
      show _ = updateTree (applyAdds (insertUnder t a.parent
          (materialize a.snap n).1) rest (materialize a.snap n).2).1 i ds
      rw [hm]

theorem applyAdds_removeRef (as : List PatchAdd) :
    ∀ (t : RTree) (n : Nat) (x : Ref), x < n →
      (applyAdds (removeRef t x) as n).1 = removeRef (applyAdds t as n).1 x := by
  induction as with
  | nil => intro t n x _; rfl
  | cons a rest ih =>
    intro t n x hx
    cases hm : materialize a.snap n with
    | mk c n2 =>
      have hb := materialize_bounds a.snap n
      rw [hm] at hb
      have hxc : x ∉ c.refs := fun h2 => absurd (hb.2 x h2).1 (Nat.not_le.mpr hx)
      have h2 : x < n2 := lt_of_lt_of_le hx hb.1
      show (applyAdds (insertUnder (removeRef t x) a.parent
          (materialize a.snap n).1) rest (materialize a.snap n).2).1 = _
      rw [hm]
      rw [← removeRef_insertUnder_comm t a.parent c x hxc]
      rw [ih _ n2 x h2]
      show _ = removeRef (applyAdds (insertUnder t a.parent
          (materialize a.snap n).1) rest (materialize a.snap n).2).1 x
      rw [hm]

theorem applyUpdates_applyAdds (us : List PatchUpdate) (as : List PatchAdd) :
    ∀ (t : RTree) (n : Nat), (∀ u ∈ us, u.id < n) →
      applyUpdates (applyAdds t as n).1 us = (applyAdds (applyUpdates t us) as n).1 := by
  induction us with
  | nil => intro t n _; rfl
  | cons u rest ih =>
    intro t n hu
    show applyUpdates (updateTree (applyAdds t as n).1 u.id u.changed_properties) rest = _
    rw [← applyAdds_updateTree as t n u.id u.changed_properties (hu u (by simp))]
    rw [ih _ n (fun v hv => hu v (by simp [hv]))]
    rfl

theorem applyRemoves_applyAdds (xs : List Ref) (as : List PatchAdd) :
    ∀ (t : RTree) (n : Nat), (∀ x ∈ xs, x < n) →
      applyRemoves (applyAdds t as n).1 xs = (applyAdds (applyRemoves t xs) as n).1 := by
  induction xs with
  | nil => intro t n _; rfl
  | cons x rest ih =>
    intro t n hx
    show applyRemoves (removeRef (applyAdds t as n).1 x) rest = _
    rw [← applyAdds_removeRef as t n x (hx x (by simp))]
    rw [ih _ n (fun v hv => hx v (by simp [hv]))]
    rfl

theorem removeRef_applyUpdates (us : List PatchUpdate) :
    ∀ (t : RTree) (x : Ref),
      removeRef (applyUpdates t us) x = applyUpdates (removeRef t x) us := by
  induction us with
  | nil => intro t x; rfl
  | cons u rest ih =>
    intro t x
    show removeRef (applyUpdates (updateTree t u.id u.changed_properties) rest) x = _
    rw [ih]
    show applyUpdates (removeRef (updateTree t u.id u.changed_properties) x) rest =
      applyUpdates (updateTree (removeRef t x) u.id u.changed_properties) rest
    rw [updateTree_removeRef_comm]

theorem applyRemoves_applyUpdates (xs : List Ref) (us : List PatchUpdate) :
    ∀ (t : RTree),
      applyRemoves (applyUpdates t us) xs = applyUpdates (applyRemoves t xs) us := by
  induction xs with
  | nil => intro t; rfl
  | cons x rest ih =>
    intro t
    show applyRemoves (removeRef (applyUpdates t us) x) rest = _
    rw [removeRef_applyUpdates, ih]
    rfl

theorem apply_merge_compose (P Q : PatchSet) (t : RTree) (n : Nat)
    (hu : ∀ u ∈ P.updated_instances, u.id < n)
    (hr : ∀ x ∈ P.removed_instances, x < n) :
    apply_patch_set t (PatchSet.merge P Q) n =
      apply_patch_set (apply_patch_set t P n) Q (applyAdds t P.added_instances n).2 := by
  obtain ⟨Pa, Pr, Pu⟩ := P
  obtain ⟨Qa, Qr, Qu⟩ := Q
  simp only [PatchSet.merge, apply_patch_set] at *
  have hmono : n ≤ (applyAdds t Pa n).2 := applyAdds_counter_mono Pa t n
  rw [applyAdds_append, applyUpdates_append, applyRemoves_append]
  rw [applyUpdates_applyAdds Pu Qa (applyAdds t Pa n).1 (applyAdds t Pa n).2
    (fun u hxu => lt_of_lt_of_le (hu u hxu) hmono)]
  rw [applyRemoves_applyUpdates Pr Qu]
  rw [applyRemoves_applyAdds Pr Qa (applyUpdates (applyAdds t Pa n).1 Pu)
    (applyAdds t Pa n).2 (fun x hxx => lt_of_lt_of_le (hr x hxx) hmono)]

theorem mem_child_refs (t : RTree) (x : Ref) (h : x ∈ RTree.refsList t.children) :
    x ∈ t.refs := by
  cases t
  simp only [RTree.children] at h
  simp only [RTree.refs, List.mem_cons]
  exact Or.inr h

theorem diffChildren_targets (sch : List Snap)
    (h : ∀ s ∈ sch, ∀ t,
      (∀ u ∈ (compute_patch_set s t).updated_instances, u.id ∈ t.refs) ∧
      (∀ a ∈ (compute_patch_set s t).added_instances, a.parent ∈ t.refs) ∧
      (∀ x ∈ (compute_patch_set s t).removed_instances, x ∈ RTree.refsList t.children)) :
    ∀ ex parent,
      (∀ u ∈ (diffChildren sch ex parent).updated_instances, u.id ∈ RTree.refsList ex) ∧
      (∀ a ∈ (diffChildren sch ex parent).added_instances,
        a.parent = parent ∨ a.parent ∈ RTree.refsList ex) ∧
      (∀ x ∈ (diffChildren sch ex parent).removed_instances, x ∈ RTree.refsList ex) := by
  induction sch with
  | nil =>
    intro ex parent
    refine ⟨?_, ?_, ?_⟩
    · intro u hu; cases hu
    · intro a ha; cases ha
    · intro x hx
      simp only [diffChildren] at hx
      obtain ⟨e, he, heq⟩ := List.mem_map.mp hx
      exact heq ▸ rootRef_mem_refsList ex e he
  | cons s rest ih =>
    intro ex parent
    cases hf : findPair s.className s.name ex with
    | some pr0 =>
      obtain ⟨t, ex2⟩ := pr0
      obtain ⟨pre, post, hex, hex2, _, _, _⟩ := findPair_eq_some s.className s.name ex t ex2 hf
      have hsub2 : ∀ y, y ∈ RTree.refsList ex2 → y ∈ RTree.refsList ex := by
        intro y hy
        rw [hex2, refsList_append] at hy
        rw [hex, refsList_append]
        simp only [RTree.refsList, List.mem_append] at hy ⊢
        tauto
      have htsub : ∀ y, y ∈ t.refs → y ∈ RTree.refsList ex := by
        intro y hy
        rw [hex, refsList_append]
        simp only [RTree.refsList, List.mem_append]
        exact Or.inr (Or.inl hy)
      have hds : diffChildren (s :: rest) ex parent =
          PatchSet.merge (compute_patch_set s t) (diffChildren rest ex2 parent) := by
        simp only [diffChildren, hf]
      obtain ⟨ihu, iha, ihx⟩ := ih (fun u hu => h u (by simp [hu])) ex2 parent
      obtain ⟨hcu, hca, hcx⟩ := h s (by simp) t
      rw [hds]
      refine ⟨?_, ?_, ?_⟩
      · intro u hu
        rcases List.mem_append.mp hu with hu | hu
        · exact htsub _ (hcu u hu)
        · exact hsub2 _ (ihu u hu)
      · intro a ha
        rcases List.mem_append.mp ha with ha | ha
        · exact Or.inr (htsub _ (hca a ha))
        · rcases iha a ha with h2 | h2
          · exact Or.inl h2
          · exact Or.inr (hsub2 _ h2)
      · intro x hx
        rcases List.mem_append.mp hx with hx | hx
        · exact htsub _ (mem_child_refs t x (hcx x hx))
        · exact hsub2 _ (ihx x hx)
    | none =>
      have hds : diffChildren (s :: rest) ex parent =
          PatchSet.merge ⟨[⟨parent, s⟩], [], []⟩ (diffChildren rest ex parent) := by
        simp only [diffChildren, hf]
      obtain ⟨ihu, iha, ihx⟩ := ih (fun u hu => h u (by simp [hu])) ex parent
      rw [hds]
      refine ⟨?_, ?_, ?_⟩
      · intro u hu
        exact ihu u hu
      · intro a ha
        rcases List.mem_append.mp ha with ha | ha
        · rcases List.mem_singleton.mp ha with rfl
          exact Or.inl rfl
        · exact iha a ha
      · intro x hx
        exact ihx x hx

theorem compute_targets (s : Snap) :
    ∀ t, (∀ u ∈ (compute_patch_set s t).updated_instances, u.id ∈ t.refs) ∧
      (∀ a ∈ (compute_patch_set s t).added_instances, a.parent ∈ t.refs) ∧
      (∀ x ∈ (compute_patch_set s t).removed_instances, x ∈ RTree.refsList t.children) := by
  induction s using Snap.snapInductionOn with
  | _ cl nm sp sch ih =>
    intro t
    cases t with
    | node r tcl tnm tp tch =>
      obtain ⟨ihu, iha, ihx⟩ := diffChildren_targets sch ih tch r
      have hcp : compute_patch_set (Snap.node cl nm sp sch) (RTree.node r tcl tnm tp tch) =
          PatchSet.merge ⟨[], [],
            if propDiff sp tp = [] then [] else [⟨r, propDiff sp tp⟩]⟩
            (diffChildren sch tch r) := by
        simp only [compute_patch_set]
      rw [hcp]
      refine ⟨?_, ?_, ?_⟩
      · intro u hu
        rcases List.mem_append.mp hu with hu | hu
        · have : u = ⟨r, propDiff sp tp⟩ := by
            by_cases hd : propDiff sp tp = []
            · rw [if_pos hd] at hu; cases hu
            · rw [if_neg hd] at hu; exact List.mem_singleton.mp hu
          rw [this]
          simp [RTree.refs]
        · have := ihu u hu
          simp only [RTree.refs, List.mem_cons]
          exact Or.inr this
      · intro a ha
        rcases List.mem_append.mp ha with ha | ha
        · cases ha
        · rcases iha a ha with h2 | h2
          · rw [h2]; simp [RTree.refs]
          · simp only [RTree.refs, List.mem_cons]
            exact Or.inr h2
      · intro x hx
        rcases List.mem_append.mp hx with hx | hx
        · cases hx
        · exact ihx x hx

theorem insertUnderList_slot (pre post : List RTree) (cur : RTree) (p : Ref) (c : RTree)
    (hpre : ∀ e ∈ pre, p ∉ e.refs) (hpost : ∀ e ∈ post, p ∉ e.refs) :
    insertUnderList (pre ++ cur :: post) p c = pre ++ insertUnder cur p c :: post := by
  rw [insertUnderList_append]
  rw [insertUnderList_noop pre p c (fun e he => insertUnder_noop e p c (hpre e he))]
  congr 1
  show insertUnder cur p c :: insertUnderList post p c = _
  rw [insertUnderList_noop post p c (fun e he => insertUnder_noop e p c (hpost e he))]

theorem updateTreeList_slot (pre post : List RTree) (cur : RTree) (i : Ref)
    (ds : List (String × Option Variant))
    (hpre : ∀ e ∈ pre, i ∉ e.refs) (hpost : ∀ e ∈ post, i ∉ e.refs) :
    updateTreeList (pre ++ cur :: post) i ds = pre ++ updateTree cur i ds :: post := by
  rw [updateTreeList_append]
  rw [updateTreeList_noop pre i ds (fun e he => updateTree_noop e i ds (hpre e he))]
  congr 1
  show updateTree cur i ds :: updateTreeList post i ds = _
  rw [updateTreeList_noop post i ds (fun e he => updateTree_noop e i ds (hpost e he))]

theorem removeRefList_slot (pre post : List RTree) (cur : RTree) (x : Ref)
    (hpre : ∀ e ∈ pre, x ∉ e.refs) (hpost : ∀ e ∈ post, x ∉ e.refs)
    (hcur : x ≠ cur.ref) :
    removeRefList (pre ++ cur :: post) x = pre ++ removeRef cur x :: post := by
  rw [removeRefList_append]
  rw [removeRefList_noop pre x
    (fun e he heq => hpre e he (heq ▸ ref_mem_refs e))
    (fun e he => removeRef_noop e x (hpre e he))]
  congr 1
  show removeRefList (cur :: post) x = _
  have hcur2 : ¬(cur.ref = x) := fun heq => hcur heq.symm
  simp only [removeRefList, if_neg hcur2]
  rw [removeRefList_noop post x
    (fun e he heq => hpost e he (heq ▸ ref_mem_refs e))
    (fun e he => removeRef_noop e x (hpost e he))]

theorem removeRefList_slot_drop (pre post : List RTree) (cur : RTree) (x : Ref)
    (hpre : ∀ e ∈ pre, x ∉ e.refs) (hpost : ∀ e ∈ post, x ∉ e.refs)
    (hcur : cur.ref = x) :
    removeRefList (pre ++ cur :: post) x = pre ++ post := by
  rw [removeRefList_append]
  rw [removeRefList_noop pre x
    (fun e he heq => hpre e he (heq ▸ ref_mem_refs e))
    (fun e he => removeRef_noop e x (hpre e he))]
  congr 1
  show removeRefList (cur :: post) x = _
  simp only [removeRefList, if_pos hcur]
  rw [removeRefList_noop post x
    (fun e he heq => hpost e he (heq ▸ ref_mem_refs e))
    (fun e he => removeRef_noop e x (hpost e he))]

theorem insertUnder_slot (r : Ref) (cl nm : String) (pp : Props)
    (pre post : List RTree) (cur : RTree) (p : Ref) (c : RTree)
    (hr : p ≠ r) (hpre : ∀ e ∈ pre, p ∉ e.refs) (hpost : ∀ e ∈ post, p ∉ e.refs) :
    insertUnder (RTree.node r cl nm pp (pre ++ cur :: post)) p c =
      RTree.node r cl nm pp (pre ++ insertUnder cur p c :: post) := by
  have hr2 : ¬(r = p) := fun heq => hr heq.symm
  simp only [insertUnder, if_neg hr2]
  rw [insertUnderList_slot pre post cur p c hpre hpost]

theorem updateTree_slot (r : Ref) (cl nm : String) (pp : Props)
    (pre post : List RTree) (cur : RTree) (i : Ref)
    (ds : List (String × Option Variant))
    (hr : i ≠ r) (hpre : ∀ e ∈ pre, i ∉ e.refs) (hpost : ∀ e ∈ post, i ∉ e.refs) :
    updateTree (RTree.node r cl nm pp (pre ++ cur :: post)) i ds =
      RTree.node r cl nm pp (pre ++ updateTree cur i ds :: post) := by
  have hr2 : ¬(r = i) := fun heq => hr heq.symm
  simp only [updateTree, if_neg hr2]
  rw [updateTreeList_slot pre post cur i ds hpre hpost]

theorem removeRef_slot (r : Ref) (cl nm : String) (pp : Props)
    (pre post : List RTree) (cur : RTree) (x : Ref)
    (hpre : ∀ e ∈ pre, x ∉ e.refs) (hpost : ∀ e ∈ post, x ∉ e.refs)
    (hcur : x ≠ cur.ref) :
    removeRef (RTree.node r cl nm pp (pre ++ cur :: post)) x =
      RTree.node r cl nm pp (pre ++ removeRef cur x :: post) := by
  simp only [removeRef]
  rw [removeRefList_slot pre post cur x hpre hpost hcur]

theorem applyAdds_root_ref (as : List PatchAdd) :
    ∀ (t : RTree) (n : Nat), (applyAdds t as n).1.ref = t.ref := by
  induction as with
  | nil => intro t n; rfl
  | cons a rest ih =>
    intro t n
    show (applyAdds (insertUnder t a.parent (materialize a.snap n).1) rest
        (materialize a.snap n).2).1.ref = t.ref
    rw [ih, (insertUnder_props t a.parent _).2]

theorem applyUpdates_root_ref (us : List PatchUpdate) :
    ∀ (t : RTree), (applyUpdates t us).ref = t.ref := by
  induction us with
  | nil => intro t; rfl
  | cons u rest ih =>
    intro t
    show (applyUpdates (updateTree t u.id u.changed_properties) rest).ref = t.ref
    rw [ih, updateTree_ref]

theorem applyAdds_slot (as : List PatchAdd) :
    ∀ (n : Nat) (r : Ref) (cl nm : String) (pp : Props) (pre post : List RTree) (cur : RTree),
      (∀ a ∈ as, a.parent ≠ r ∧ (∀ e ∈ pre, a.parent ∉ e.refs) ∧
        (∀ e ∈ post, a.parent ∉ e.refs)) →
      (applyAdds (RTree.node r cl nm pp (pre ++ cur :: post)) as n).1 =
        RTree.node r cl nm pp (pre ++ (applyAdds cur as n).1 :: post) := by
  induction as with
  | nil => intro n r cl nm pp pre post cur _; rfl
  | cons a rest ih =>
    intro n r cl nm pp pre post cur h
    obtain ⟨h1, h2, h3⟩ := h a (by simp)
    show (applyAdds (insertUnder (RTree.node r cl nm pp (pre ++ cur :: post)) a.parent
        (materialize a.snap n).1) rest (materialize a.snap n).2).1 = _
    rw [insertUnder_slot r cl nm pp pre post cur a.parent _ h1 h2 h3]
    rw [ih _ r cl nm pp pre post _ (fun b hb => h b (by simp [hb]))]
    rfl

theorem applyUpdates_slot (us : List PatchUpdate) :
    ∀ (r : Ref) (cl nm : String) (pp : Props) (pre post : List RTree) (cur : RTree),
      (∀ u ∈ us, u.id ≠ r ∧ (∀ e ∈ pre, u.id ∉ e.refs) ∧ (∀ e ∈ post, u.id ∉ e.refs)) →
      applyUpdates (RTree.node r cl nm pp (pre ++ cur :: post)) us =
        RTree.node r cl nm pp (pre ++ applyUpdates cur us :: post) := by
  induction us with
  | nil => intro r cl nm pp pre post cur _; rfl
  | cons u rest ih =>
    intro r cl nm pp pre post cur h
    obtain ⟨h1, h2, h3⟩ := h u (by simp)
    show applyUpdates (updateTree (RTree.node r cl nm pp (pre ++ cur :: post)) u.id
        u.changed_properties) rest = _
    rw [updateTree_slot r cl nm pp pre post cur u.id _ h1 h2 h3]
    rw [ih r cl nm pp pre post _ (fun v hv => h v (by simp [hv]))]
    rfl

theorem applyRemoves_slot (xs : List Ref) :
    ∀ (r : Ref) (cl nm : String) (pp : Props) (pre post : List RTree) (cur : RTree),
      (∀ x ∈ xs, x ≠ r ∧ x ≠ cur.ref ∧ (∀ e ∈ pre, x ∉ e.refs) ∧
        (∀ e ∈ post, x ∉ e.refs)) →
      applyRemoves (RTree.node r cl nm pp (pre ++ cur :: post)) xs =
        RTree.node r cl nm pp (pre ++ applyRemoves cur xs :: post) := by
  induction xs with
  | nil => intro r cl nm pp pre post cur _; rfl
  | cons x rest ih =>
    intro r cl nm pp pre post cur h
    obtain ⟨h1, h2, h3, h4⟩ := h x (by simp)
    show applyRemoves (removeRef (RTree.node r cl nm pp (pre ++ cur :: post)) x) rest = _
    rw [removeRef_slot r cl nm pp pre post cur x h3 h4 h2]
    rw [ih r cl nm pp pre post _ (fun v hv => by
      obtain ⟨g1, g2, g3, g4⟩ := h v (by simp [hv])
      exact ⟨g1, by rw [removeRef_ref]; exact g2, g3, g4⟩)]
    rfl

theorem apply_patch_slot (P : PatchSet) (n : Nat) (r : Ref) (cl nm : String) (pp : Props)
    (pre post : List RTree) (cur : RTree)
    (ha : ∀ a ∈ P.added_instances, a.parent ≠ r ∧ (∀ e ∈ pre, a.parent ∉ e.refs) ∧
      (∀ e ∈ post, a.parent ∉ e.refs))
    (hu : ∀ u ∈ P.updated_instances, u.id ≠ r ∧ (∀ e ∈ pre, u.id ∉ e.refs) ∧
      (∀ e ∈ post, u.id ∉ e.refs))
    (hx : ∀ x ∈ P.removed_instances, x ≠ r ∧ x ≠ cur.ref ∧ (∀ e ∈ pre, x ∉ e.refs) ∧
      (∀ e ∈ post, x ∉ e.refs)) :
    apply_patch_set (RTree.node r cl nm pp (pre ++ cur :: post)) P n =
      RTree.node r cl nm pp (pre ++ apply_patch_set cur P n :: post) := by
  unfold apply_patch_set
  rw [applyAdds_slot P.added_instances n r cl nm pp pre post cur ha]
  rw [applyUpdates_slot P.updated_instances r cl nm pp pre post _ hu]
  rw [applyRemoves_slot P.removed_instances r cl nm pp pre post _ (fun x hxm => by
    obtain ⟨g1, g2, g3, g4⟩ := hx x hxm
    refine ⟨g1, ?_, g3, g4⟩
    rw [applyUpdates_root_ref, applyAdds_root_ref]
    exact g2)]

theorem mem_refsList_exists (L : List RTree) :
    ∀ x ∈ RTree.refsList L, ∃ e, e ∈ L ∧ x ∈ e.refs := by
  induction L with
  | nil => intro x hx; cases hx
  | cons e rest ih =>
    intro x hx
    simp only [RTree.refsList, List.mem_append] at hx
    rcases hx with hx | hx
    · exact ⟨e, by simp, hx⟩
    · obtain ⟨e0, h1, h2⟩ := ih x hx
      exact ⟨e0, by simp [h1], h2⟩

theorem refsList_replaceByRef (L : List RTree) (asg : List (Ref × RTree)) (gone : List Ref) :
    ∀ x ∈ RTree.refsList (replaceByRef asg gone L),
      (∃ e, e ∈ L ∧ x ∈ e.refs) ∨ (∃ pr, pr ∈ asg ∧ x ∈ pr.2.refs) := by
  induction L with
  | nil => intro x hx; cases hx
  | cons e rest ih =>
    intro x hx
    simp only [replaceByRef] at hx
    by_cases hg : e.ref ∈ gone
    · rw [if_pos hg] at hx
      rcases ih x hx with ⟨e0, h1, h2⟩ | h
      · exact Or.inl ⟨e0, by simp [h1], h2⟩
      · exact Or.inr h
    · rw [if_neg hg] at hx
      cases hfind : asg.find? (fun pr => decide (pr.1 = e.ref)) with
      | some pr =>
        rw [hfind] at hx
        simp only [RTree.refsList, List.mem_append] at hx
        rcases hx with hx | hx
        · exact Or.inr ⟨pr, List.mem_of_find?_eq_some hfind, hx⟩
        · rcases ih x hx with ⟨e0, h1, h2⟩ | h
          · exact Or.inl ⟨e0, by simp [h1], h2⟩
          · exact Or.inr h
      | none =>
        rw [hfind] at hx
        simp only [RTree.refsList, List.mem_append] at hx
        rcases hx with hx | hx
        · exact Or.inl ⟨e, by simp, hx⟩
        · rcases ih x hx with ⟨e0, h1, h2⟩ | h
          · exact Or.inl ⟨e0, by simp [h1], h2⟩
          · exact Or.inr h

theorem mergeChildren_refs (sch : List Snap)
    (h : ∀ s ∈ sch, ∀ t n, n ≤ (mergeExec s t n).2 ∧
      ∀ x ∈ (mergeExec s t n).1.refs, x ∈ t.refs ∨ (n ≤ x ∧ x < (mergeExec s t n).2)) :
    ∀ ex n asg addsT remR n3, mergeChildren sch ex n = (asg, addsT, remR, n3) →
      n ≤ n3 ∧
      (∀ pr ∈ asg, ∀ x ∈ pr.2.refs, x ∈ RTree.refsList ex ∨ (n ≤ x ∧ x < n3)) ∧
      (∀ m ∈ addsT, ∀ x ∈ m.refs, n ≤ x ∧ x < n3) := by
  induction sch with
  | nil =>
    intro ex n asg addsT remR n3 hmc
    simp only [mergeChildren] at hmc
    cases hmc
    refine ⟨le_refl n, ?_, ?_⟩
    · intro pr hpr; cases hpr
    · intro m hm; cases hm
  | cons s rest ih =>
    intro ex n asg addsT remR n3 hmc
    simp only [mergeChildren] at hmc
    cases hf : findPair s.className s.name ex with
    | some pr0 =>
      obtain ⟨t, ex2⟩ := pr0
      rw [hf] at hmc
      dsimp only at hmc
      cases hme : mergeExec s t n with
      | mk t2 n2 =>
        rw [hme] at hmc
        dsimp only at hmc
        cases hmc2 : mergeChildren rest ex2 n2 with
        | mk asg2 rest3 =>
          obtain ⟨addsT2, remR2, n32⟩ := rest3
          rw [hmc2] at hmc
          dsimp only at hmc
          cases hmc
          obtain ⟨pre, post, hex, hex2, _, _, _⟩ :=
            findPair_eq_some s.className s.name ex t ex2 hf
          have hsub2 : ∀ y, y ∈ RTree.refsList ex2 → y ∈ RTree.refsList ex := by
            intro y hy
            rw [hex2, refsList_append] at hy
            rw [hex, refsList_append]
            simp only [RTree.refsList, List.mem_append] at hy ⊢
            tauto
          have htsub : ∀ y, y ∈ t.refs → y ∈ RTree.refsList ex := by
            intro y hy
            rw [hex, refsList_append]
            simp only [RTree.refsList, List.mem_append]
            exact Or.inr (Or.inl hy)
          obtain ⟨hm1, hm2⟩ := h s (by simp) t n
          rw [hme] at hm1 hm2
          obtain ⟨ih1, ih2, ih3⟩ := ih (fun u hu => h u (by simp [hu])) ex2 n2
            asg2 addsT remR n3 hmc2
          refine ⟨le_trans hm1 ih1, ?_, ?_⟩
          · intro pr hpr x hx
            rcases List.mem_cons.mp hpr with rfl | hpr2
            · rcases hm2 x hx with h2 | h2
              · exact Or.inl (htsub x h2)
              · exact Or.inr ⟨h2.1, lt_of_lt_of_le h2.2 ih1⟩
            · rcases ih2 pr hpr2 x hx with h2 | h2
              · exact Or.inl (hsub2 x h2)
              · exact Or.inr ⟨le_trans hm1 h2.1, h2.2⟩
          · intro m hm x hx
            obtain ⟨h2, h3⟩ := ih3 m hm x hx
            exact ⟨le_trans hm1 h2, h3⟩
    | none =>
      rw [hf] at hmc
      dsimp only at hmc
      cases hmat : materialize s n with
      | mk m n2 =>
        rw [hmat] at hmc
        dsimp only at hmc
        cases hmc2 : mergeChildren rest ex n2 with
        | mk asg2 rest3 =>
          obtain ⟨addsT2, remR2, n32⟩ := rest3
          rw [hmc2] at hmc
          dsimp only at hmc
          cases hmc
          have hb := materialize_bounds s n
          rw [hmat] at hb
          obtain ⟨ih1, ih2, ih3⟩ := ih (fun u hu => h u (by simp [hu])) ex n2
            asg addsT2 remR n3 hmc2
          refine ⟨le_trans hb.1 ih1, ?_, ?_⟩
          · intro pr hpr x hx
            rcases ih2 pr hpr x hx with h2 | h2
            · exact Or.inl h2
            · exact Or.inr ⟨le_trans hb.1 h2.1, h2.2⟩
          · intro m2 hm2 x hx
            rcases List.mem_cons.mp hm2 with rfl | hm3
            · obtain ⟨h2, h3⟩ := hb.2 x hx
              exact ⟨h2, lt_of_lt_of_le h3 ih1⟩
            · obtain ⟨h2, h3⟩ := ih3 m2 hm3 x hx
              exact ⟨le_trans hb.1 h2, h3⟩

theorem mergeExec_refs (s : Snap) :
    ∀ t n, n ≤ (mergeExec s t n).2 ∧
      ∀ x ∈ (mergeExec s t n).1.refs, x ∈ t.refs ∨ (n ≤ x ∧ x < (mergeExec s t n).2) := by
  induction s using Snap.snapInductionOn with
  | _ cl nm sp sch ih =>
    intro t n
    cases t with
    | node r tcl tnm tp tch =>
      simp only [mergeExec]
      cases hmc : mergeChildren sch tch n with
      | mk asg rest3 =>
        obtain ⟨addsT, remR, n2⟩ := rest3
        obtain ⟨h1, h2, h3⟩ := mergeChildren_refs sch ih tch n asg addsT remR n2 hmc
        refine ⟨h1, ?_⟩
        intro x hx
        show x ∈ (RTree.node r tcl tnm tp tch).refs ∨ (n ≤ x ∧ x < n2)
        replace hx : x ∈ (RTree.node r tcl tnm (applyDeltas tp (propDiff sp tp))
            (replaceByRef asg remR tch ++ addsT)).refs := hx
        simp only [RTree.refs, List.mem_cons, refsList_append] at hx ⊢
        rcases hx with rfl | hx
        · exact Or.inl (Or.inl rfl)
        · rcases List.mem_append.mp hx with hx | hx
          · rcases refsList_replaceByRef tch asg remR x hx with ⟨e, he, hxe⟩ | ⟨pr, hpr, hxp⟩
            · exact Or.inl (Or.inr (refs_mem_refsList tch e he x hxe))
            · rcases h2 pr hpr x hxp with h4 | h4
              · exact Or.inl (Or.inr h4)
              · exact Or.inr h4
          · obtain ⟨m, hm, hxm⟩ := mem_refsList_exists addsT x hx
            exact Or.inr (h3 m hm x hxm)

theorem materialize_root_ref (s : Snap) (n : Nat) : (materialize s n).1.ref = n := by
  cases s with
  | node cl nm p ch =>
    simp only [materialize]
    cases hml : materializeList ch (n + 1) with
    | mk ms n2 => rfl

theorem refsList_nodup_disjoint (L : List RTree) (h : (RTree.refsList L).Nodup) :
    ∀ e ∈ L, ∀ f ∈ L, f.ref ≠ e.ref → ∀ x ∈ e.refs, x ∉ f.refs := by
  induction L with
  | nil => intro e he; cases he
  | cons t rest ih =>
    intro e he f hf hne x hxe hxf
    simp only [RTree.refsList] at h
    rcases List.mem_cons.mp he with rfl | he2
    · rcases List.mem_cons.mp hf with rfl | hf2
      · exact hne rfl
      · exact (List.disjoint_of_nodup_append h) hxe (refs_mem_refsList rest f hf2 x hxf)
    · rcases List.mem_cons.mp hf with rfl | hf2
      · exact (List.disjoint_of_nodup_append h) hxf (refs_mem_refsList rest e he2 x hxe)
      · exact ih h.of_append_right e he2 f hf2 hne x hxe hxf

theorem root_not_in_children (t : RTree) (h : t.refs.Nodup) :
    ∀ x ∈ RTree.refsList t.children, x ≠ t.ref := by
  cases t with
  | node r cl nm p ch =>
    intro x hx heq
    simp only [RTree.refs] at h
    simp only [RTree.children] at hx
    simp only [RTree.ref] at heq
    exact (List.nodup_cons.mp h).1 (heq ▸ hx)

theorem roots_split (A B : List RTree) (t : RTree)
    (h : ((A ++ t :: B).map RTree.ref).Nodup) :
    (∀ f ∈ A, f.ref ≠ t.ref) ∧ (∀ f ∈ B, f.ref ≠ t.ref) := by
  simp only [List.map_append, List.map_cons] at h
  constructor
  · intro f hf heq
    exact (List.disjoint_of_nodup_append h) (List.mem_map_of_mem RTree.ref hf)
      (by simp [heq])
  · intro f hf heq
    have h2 := h.of_append_right
    exact (List.nodup_cons.mp h2).1 (heq ▸ List.mem_map_of_mem RTree.ref hf)

theorem roots_erase (A B : List RTree) (t : RTree)
    (h : ((A ++ t :: B).map RTree.ref).Nodup) :
    ((A ++ B).map RTree.ref).Nodup ∧ t.ref ∉ (A ++ B).map RTree.ref := by
  simp only [List.map_append, List.map_cons] at h
  simp only [List.map_append, List.mem_append]
  have hA := h.of_append_left
  have hcons := h.of_append_right
  have hB := (List.nodup_cons.mp hcons).2
  have htB := (List.nodup_cons.mp hcons).1
  have hd := List.disjoint_of_nodup_append h
  refine ⟨List.Nodup.append hA hB (fun a ha hb => hd ha (by simp [hb])), ?_⟩
  intro hmem
  rcases hmem with hmem | hmem
  · exact hd hmem (by simp)
  · exact htB hmem

theorem replaceByRef_singleton (asg : List (Ref × RTree)) (gone : List Ref) (m : RTree)
    (h1 : m.ref ∉ gone)
    (h2 : asg.find? (fun pr => decide (pr.1 = m.ref)) = none) :
    replaceByRef asg gone [m] = [m] := by
  simp only [replaceByRef]
  rw [if_neg h1, h2]

theorem replaceByRef_step (A B : List RTree) (asg : List (Ref × RTree)) (gone : List Ref)
    (t t2 : RTree)
    (h1 : t2.ref = t.ref) (h2 : t.ref ∉ gone)
    (h3 : asg.find? (fun pr => decide (pr.1 = t.ref)) = none)
    (hA : ∀ f ∈ A, f.ref ≠ t.ref) (hB : ∀ f ∈ B, f.ref ≠ t.ref) :
    replaceByRef ((t.ref, t2) :: asg) gone (A ++ t :: B) =
      replaceByRef asg gone (A ++ t2 :: B) := by
  rw [replaceByRef_append, replaceByRef_append]
  rw [replaceByRef_cons_shadow t.ref t2 asg gone A hA]
  congr 1
  simp only [replaceByRef]
  rw [if_neg h2, if_neg (h1 ▸ h2)]
  have hfl : ((t.ref, t2) :: asg).find? (fun pr => decide (pr.1 = t.ref)) =
      some (t.ref, t2) := by
    simp [List.find?]
  have hfr : asg.find? (fun pr => decide (pr.1 = t2.ref)) = none := by
    rw [h1]; exact h3
  rw [hfl, hfr]
  dsimp only
  congr 1
  exact replaceByRef_cons_shadow t.ref t2 asg gone B hB

theorem mem_removeRefList (l : List RTree) (x : Ref)
    (h : ∀ f ∈ l, f.ref ≠ x → x ∉ f.refs) :
    ∀ e ∈ removeRefList l x, e ∈ l := by
  induction l with
  | nil => intro e he; cases he
  | cons t rest ih =>
    intro e he
    simp only [removeRefList] at he
    by_cases ht : t.ref = x
    · rw [if_pos ht] at he
      exact List.mem_cons_of_mem t (ih (fun f hf => h f (by simp [hf])) e he)
    · rw [if_neg ht] at he
      rw [removeRef_noop t x (h t (by simp) ht)] at he
      rcases List.mem_cons.mp he with rfl | he2
      · exact List.mem_cons_self _ _
      · exact List.mem_cons_of_mem t (ih (fun f hf => h f (by simp [hf])) e he2)

theorem replaceByRef_nil_removeRefList (xs : List Ref) (x : Ref) (l : List RTree)
    (h : ∀ f ∈ l, f.ref ≠ x → x ∉ f.refs) :
    replaceByRef [] xs (removeRefList l x) = replaceByRef [] (x :: xs) l := by
  induction l with
  | nil => rfl
  | cons t rest ih =>
    simp only [removeRefList]
    by_cases ht : t.ref = x
    · rw [if_pos ht]
      rw [show replaceByRef [] (x :: xs) (t :: rest) =
        if t.ref ∈ x :: xs then replaceByRef [] (x :: xs) rest
        else match ([] : List (Ref × RTree)).find? (fun pr => decide (pr.1 = t.ref)) with
          | some pr => pr.2 :: replaceByRef [] (x :: xs) rest
          | none => t :: replaceByRef [] (x :: xs) rest from rfl]
      rw [if_pos (by simp [ht])]
      exact ih (fun f hf => h f (by simp [hf]))
    · rw [if_neg ht]
      rw [removeRef_noop t x (h t (by simp) ht)]
      simp only [replaceByRef, List.find?]
      have hmem : (t.ref ∈ x :: xs) ↔ (t.ref ∈ xs) := by
        simp [List.mem_cons, ht]
      by_cases hin : t.ref ∈ xs
      · rw [if_pos hin, if_pos (hmem.mpr hin)]
        exact ih (fun f hf => h f (by simp [hf]))
      · rw [if_neg hin, if_neg (fun hc => hin (hmem.mp hc))]
        rw [ih (fun f hf => h f (by simp [hf]))]

theorem replaceByRef_nil_nil (l : List RTree) : replaceByRef [] [] l = l := by
  induction l with
  | nil => rfl
  | cons t rest ih =>
    simp only [replaceByRef, List.find?]
    rw [if_neg (List.not_mem_nil t.ref)]
    rw [ih]

theorem applyRemoves_node (xs : List Ref) :
    ∀ (r : Ref) (cl nm : String) (p : Props) (CH : List RTree),
      (∀ x ∈ xs, ∀ f ∈ CH, f.ref ≠ x → x ∉ f.refs) →
      applyRemoves (RTree.node r cl nm p CH) xs =
        RTree.node r cl nm p (replaceByRef [] xs CH) := by
  induction xs with
  | nil =>
    intro r cl nm p CH _
    rw [replaceByRef_nil_nil]
    rfl
  | cons x rest ih =>
    intro r cl nm p CH h
    show applyRemoves (removeRef (RTree.node r cl nm p CH) x) rest = _
    rw [show removeRef (RTree.node r cl nm p CH) x =
      RTree.node r cl nm p (removeRefList CH x) from rfl]
    rw [ih r cl nm p (removeRefList CH x) (fun y hy f hf =>
      h y (by simp [hy]) f (mem_removeRefList CH x (fun g hg => h x (by simp) g hg) f hf))]
    rw [replaceByRef_nil_removeRefList rest x CH (fun f hf => h x (by simp) f hf)]

set_option maxHeartbeats 1000000 in
theorem applyDC (sch : List Snap) :
    ∀ (ex CH : List RTree) (r : Ref) (tcl tnm : String) (tp : Props) (n : Nat),
      (∀ e ∈ ex, e ∈ CH) →
      ((ex.map RTree.ref).Nodup) →
      ((CH.map RTree.ref).Nodup) →
      (∀ e ∈ ex, e.refs.Nodup) →
      (∀ e ∈ ex, ∀ f ∈ CH, f.ref ≠ e.ref → ∀ x ∈ e.refs, x ∉ f.refs) →
      (∀ x ∈ RTree.refsList CH, x < n) →
      (r ∉ RTree.refsList CH) →
      (r < n) →
      (∀ s ∈ sch, ∀ (t : RTree) (m : Nat), t.refs.Nodup → (∀ x ∈ t.refs, x < m) →
        apply_patch_set t (compute_patch_set s t) m = (mergeExec s t m).1 ∧
        (applyAdds t (compute_patch_set s t).added_instances m).2 = (mergeExec s t m).2) →
      apply_patch_set (RTree.node r tcl tnm tp CH) (diffChildren sch ex r) n =
        RTree.node r tcl tnm tp
          (replaceByRef (mergeChildren sch ex n).1 (mergeChildren sch ex n).2.2.1 CH
            ++ (mergeChildren sch ex n).2.1) ∧
      (applyAdds (RTree.node r tcl tnm tp CH) (diffChildren sch ex r).added_instances n).2 =
        (mergeChildren sch ex n).2.2.2 := by
  induction sch with
  | nil =>
    intro ex CH r tcl tnm tp n hmem hexnd hchnd hrefnd hdisj hlt hrnotin hrlt hB1
    have hDF : diffChildren [] ex r = ⟨[], ex.map RTree.ref, []⟩ := by
      simp only [diffChildren]
    have hMC : mergeChildren [] ex n = ([], [], ex.map RTree.ref, n) := by
      simp only [mergeChildren]
    rw [hDF, hMC]
    dsimp only
    constructor
    · have hcond : ∀ x ∈ ex.map RTree.ref, ∀ f ∈ CH, f.ref ≠ x → x ∉ f.refs := by
        intro x hx f hf hne hxf
        obtain ⟨e, he, heq⟩ := List.mem_map.mp hx
        exact hdisj e he f hf (heq ▸ hne) x (heq ▸ ref_mem_refs e) hxf
      show applyRemoves (RTree.node r tcl tnm tp CH) (ex.map RTree.ref) = _
      rw [applyRemoves_node (ex.map RTree.ref) r tcl tnm tp CH hcond]
      rw [List.append_nil]
    · rfl
  | cons s rest ih =>
    intro ex CH r tcl tnm tp n hmem hexnd hchnd hrefnd hdisj hlt hrnotin hrlt hB1
    cases hf : findPair s.className s.name ex with
    | some pr0 =>
      obtain ⟨t, ex2⟩ := pr0
      have hDF : diffChildren (s :: rest) ex r =
          PatchSet.merge (compute_patch_set s t) (diffChildren rest ex2 r) := by
        simp only [diffChildren, hf]
      cases hme : mergeExec s t n with
      | mk t2 n2 =>
        cases hmc : mergeChildren rest ex2 n2 with
        | mk asg rest3 =>
          obtain ⟨addsT, remR, n3⟩ := rest3
          have hMC : mergeChildren (s :: rest) ex n =
              ((t.ref, t2) :: asg, addsT, remR, n3) := by
            simp only [mergeChildren, hf]
            rw [hme]
            dsimp only
            rw [hmc]
          obtain ⟨pre, post, hex, hex2, hfpre, hcls, hnm⟩ :=
            findPair_eq_some s.className s.name ex t ex2 hf
          subst hex
          subst hex2
          have htex : t ∈ pre ++ t :: post := by simp
          have htCH : t ∈ CH := hmem t htex
          obtain ⟨A, B, hsplit⟩ := List.append_of_mem htCH
          subst hsplit
          obtain ⟨hAr, hBr⟩ := roots_split A B t hchnd
          have htnd : t.refs.Nodup := hrefnd t htex
          have htlt : ∀ x ∈ t.refs, x < n :=
            fun x hx => hlt x (refs_mem_refsList _ t htCH x hx)
          obtain ⟨hb1, hb2⟩ := hB1 s (by simp) t n htnd htlt
          rw [hme] at hb1 hb2
          obtain ⟨hctu, hcta, hctx⟩ := compute_targets s t
          obtain ⟨hex2nd, htnotex2⟩ := roots_erase pre post t hexnd
          have ht2ref : t2.ref = t.ref := by
            have := (mergeExec_fields s t n).1
            rw [hme] at this
            exact this
          have hrefprov : ∀ y ∈ t2.refs, y ∈ t.refs ∨ (n ≤ y ∧ y < n2) := by
            have := (mergeExec_refs s t n).2
            rw [hme] at this
            exact this
          have hn2 : n ≤ n2 := by
            have := (mergeExec_refs s t n).1
            rw [hme] at this
            exact this
          have hAsub : ∀ f ∈ A, f ∈ A ++ t :: B := fun f hf => by simp [hf]
          have hBsub : ∀ f ∈ B, f ∈ A ++ t :: B := fun f hf => by simp [hf]
          have hnotAB : ∀ y ∈ t.refs, (∀ e ∈ A, y ∉ e.refs) ∧ (∀ e ∈ B, y ∉ e.refs) := by
            intro y hy
            constructor
            · intro e he2
              exact hdisj t htex e (hAsub e he2) (hAr e he2) y hy
            · intro e he2
              exact hdisj t htex e (hBsub e he2) (hBr e he2) y hy
          have hnotr : ∀ y ∈ t.refs, y ≠ r := by
            intro y hy heq
            exact hrnotin (heq ▸ refs_mem_refsList _ t htCH y hy)
          have hslot := apply_patch_slot (compute_patch_set s t) n r tcl tnm tp A B t
            (fun a ha => ⟨hnotr a.parent (hcta a ha), (hnotAB a.parent (hcta a ha)).1,
              (hnotAB a.parent (hcta a ha)).2⟩)
            (fun u hu => ⟨hnotr u.id (hctu u hu), (hnotAB u.id (hctu u hu)).1,
              (hnotAB u.id (hctu u hu)).2⟩)
            (fun x hx => ⟨hnotr x (mem_child_refs t x (hctx x hx)),
              root_not_in_children t htnd x (hctx x hx),
              (hnotAB x (mem_child_refs t x (hctx x hx))).1,
              (hnotAB x (mem_child_refs t x (hctx x hx))).2⟩)
          have hc1 : (applyAdds (RTree.node r tcl tnm tp (A ++ t :: B))
              (compute_patch_set s t).added_instances n).2 = n2 := by
            rw [applyAdds_counter (compute_patch_set s t).added_instances
              (RTree.node r tcl tnm tp (A ++ t :: B)) t n]
            exact hb2
          have hcompose := apply_merge_compose (compute_patch_set s t)
            (diffChildren rest (pre ++ post) r) (RTree.node r tcl tnm tp (A ++ t :: B)) n
            (fun u hu => htlt u.id (hctu u hu))
            (fun x hx => htlt x (mem_child_refs t x (hctx x hx)))
          -- hypotheses of the inner induction
          have hmem2 : ∀ e ∈ (pre ++ post), e ∈ A ++ t2 :: B := by
            intro e he
            have heex : e ∈ pre ++ t :: post := by
              rcases List.mem_append.mp he with h2 | h2
              · simp [h2]
              · simp [h2]
            have hene : e.ref ≠ t.ref := by
              intro heq
              exact htnotex2 (heq ▸ List.mem_map_of_mem RTree.ref he)
            rcases List.mem_append.mp (hmem e heex) with h2 | h2
            · exact List.mem_append.mpr (Or.inl h2)
            · rcases List.mem_cons.mp h2 with rfl | h2
              · exact absurd rfl hene
              · exact List.mem_append.mpr (Or.inr (List.mem_cons_of_mem t2 h2))
          have hchnd2 : ((A ++ t2 :: B).map RTree.ref).Nodup := by
            have heq : (A ++ t2 :: B).map RTree.ref = (A ++ t :: B).map RTree.ref := by
              simp [List.map_append, List.map_cons, ht2ref]
            rw [heq]
            exact hchnd
          have hrefnd2 : ∀ e ∈ (pre ++ post), e.refs.Nodup := by
            intro e he
            have heex : e ∈ pre ++ t :: post := by
              rcases List.mem_append.mp he with h2 | h2
              · simp [h2]
              · simp [h2]
            exact hrefnd e heex
          have hexlt : ∀ e ∈ (pre ++ post), ∀ x ∈ e.refs, x < n := by
            intro e he x hx
            have heex : e ∈ pre ++ t :: post := by
              rcases List.mem_append.mp he with h2 | h2
              · simp [h2]
              · simp [h2]
            exact hlt x (refs_mem_refsList _ e (hmem e heex) x hx)
          have hdisj2 : ∀ e ∈ (pre ++ post), ∀ f ∈ A ++ t2 :: B, f.ref ≠ e.ref →
              ∀ x ∈ e.refs, x ∉ f.refs := by
            intro e he f hfm hne x hx
            have heex : e ∈ pre ++ t :: post := by
              rcases List.mem_append.mp he with h2 | h2
              · simp [h2]
              · simp [h2]
            rcases List.mem_append.mp hfm with h2 | h2
            · exact hdisj e heex f (hAsub f h2) hne x hx
            · rcases List.mem_cons.mp h2 with rfl | h2
              · intro hxf
                rcases hrefprov x hxf with h3 | h3
                · have hene : t.ref ≠ e.ref := ht2ref ▸ hne
                  exact hdisj e heex t htCH hene x hx h3
                · exact absurd (hexlt e he x hx) (Nat.not_lt.mpr h3.1)
              · exact hdisj e heex f (hBsub f h2) hne x hx
          have hlt2 : ∀ x ∈ RTree.refsList (A ++ t2 :: B), x < n2 := by
            intro x hx
            rw [refsList_append] at hx
            simp only [RTree.refsList] at hx
            rcases List.mem_append.mp hx with h2 | h2
            · exact lt_of_lt_of_le (hlt x (by rw [refsList_append]; simp [RTree.refsList]; tauto)) hn2
            · rcases List.mem_append.mp h2 with h3 | h3
              · rcases hrefprov x h3 with h4 | h4
                · exact lt_of_lt_of_le (htlt x h4) hn2
                · exact h4.2
              · refine lt_of_lt_of_le (hlt x ?_) hn2
                rw [refsList_append]
                simp only [RTree.refsList, List.mem_append]
                tauto
          have hrnotin2 : r ∉ RTree.refsList (A ++ t2 :: B) := by
            intro hx
            rw [refsList_append] at hx
            simp only [RTree.refsList] at hx
            rcases List.mem_append.mp hx with h2 | h2
            · exact hrnotin (by rw [refsList_append]; simp [RTree.refsList]; tauto)
            · rcases List.mem_append.mp h2 with h3 | h3
              · rcases hrefprov r h3 with h4 | h4
                · exact hnotr r h4 rfl
                · exact absurd hrlt (Nat.not_lt.mpr h4.1)
              · refine hrnotin ?_
                rw [refsList_append]
                simp only [RTree.refsList, List.mem_append]
                tauto
          obtain ⟨ih1, ih2⟩ := ih (pre ++ post) (A ++ t2 :: B) r tcl tnm tp n2 hmem2 hex2nd hchnd2
            hrefnd2 hdisj2 hlt2 hrnotin2 (lt_of_lt_of_le hrlt hn2)
            (fun u hu => hB1 u (by simp [hu]))
          rw [hmc] at ih1 ih2
          have hremsub : ∀ x ∈ remR, x ∈ (pre ++ post).map RTree.ref :=
            mergeChildren_remR_sub rest (pre ++ post) n2 asg addsT remR n3 hmc
          have htnotrem : t.ref ∉ remR := fun hc => htnotex2 (hremsub t.ref hc)
          have hfind : asg.find? (fun pr => decide (pr.1 = t.ref)) = none := by
            rw [List.find?_eq_none]
            intro pr hpr
            obtain ⟨e, he, h1, _⟩ :=
              mergeChildren_asg_fields rest (pre ++ post) n2 asg addsT remR n3 hmc pr hpr
            simp only [decide_eq_true_eq]
            rw [h1]
            intro heq
            exact htnotex2 (heq ▸ List.mem_map_of_mem RTree.ref he)
          have hstep := replaceByRef_step A B asg remR t t2 ht2ref htnotrem hfind hAr hBr
          rw [hDF, hMC]
          dsimp only
          constructor
          · rw [hcompose]
            rw [hc1, hslot, hb1, ih1, hstep]
          · simp only [PatchSet.merge]
            rw [applyAdds_append, hc1]
            rw [applyAdds_counter (diffChildren rest (pre ++ post) r).added_instances _
              (RTree.node r tcl tnm tp (A ++ t2 :: B)) n2]
            exact ih2
    | none =>
      have hDF : diffChildren (s :: rest) ex r =
          PatchSet.merge ⟨[⟨r, s⟩], [], []⟩ (diffChildren rest ex r) := by
        simp only [diffChildren, hf]
      cases hmat : materialize s n with
      | mk m n2 =>
        cases hmc : mergeChildren rest ex n2 with
        | mk asg rest3 =>
          obtain ⟨addsT, remR, n3⟩ := rest3
          have hMC : mergeChildren (s :: rest) ex n = (asg, m :: addsT, remR, n3) := by
            simp only [mergeChildren, hf]
            rw [hmat]
            dsimp only
            rw [hmc]
          have hn2 : n ≤ n2 := by
            have := (materialize_bounds s n).1
            rw [hmat] at this
            exact this
          have hmref : m.ref = n := by
            have := materialize_root_ref s n
            rw [hmat] at this
            exact this
          have hmrefs : ∀ y ∈ m.refs, n ≤ y ∧ y < n2 := by
            have := (materialize_bounds s n).2
            rw [hmat] at this
            exact this
          have hrootlt : ∀ f ∈ CH, f.ref < n :=
            fun f hfm => hlt f.ref (refs_mem_refsList CH f hfm f.ref (ref_mem_refs f))
          have hexrootlt : ∀ e ∈ ex, e.ref < n :=
            fun e he => hrootlt e (hmem e he)
          have happ : apply_patch_set (RTree.node r tcl tnm tp CH)
              ⟨[⟨r, s⟩], [], []⟩ n = RTree.node r tcl tnm tp (CH ++ [m]) := by
            show insertUnder (RTree.node r tcl tnm tp CH) r (materialize s n).1 = _
            rw [show (materialize s n).1 = m from by rw [hmat]]
            have hiu : insertUnder (RTree.node r tcl tnm tp CH) r m =
                RTree.node r tcl tnm tp (insertUnderList CH r m ++ [m]) := by
              simp [insertUnder]
            rw [hiu]
            rw [insertUnderList_noop CH r m
              (fun e he => insertUnder_noop e r m
                (fun hc => hrnotin (refs_mem_refsList CH e he r hc)))]
          have hc1 : (applyAdds (RTree.node r tcl tnm tp CH) [⟨r, s⟩] n).2 = n2 := by
            show (materialize s n).2 = n2
            rw [hmat]
          have hcompose := apply_merge_compose (⟨[⟨r, s⟩], [], []⟩ : PatchSet)
            (diffChildren rest ex r) (RTree.node r tcl tnm tp CH) n
            (fun u hu => absurd hu (List.not_mem_nil u))
            (fun x hx => absurd hx (List.not_mem_nil x))
          -- hypotheses of the inner induction
          have hmem2 : ∀ e ∈ ex, e ∈ CH ++ [m] :=
            fun e he => List.mem_append.mpr (Or.inl (hmem e he))
          have hchnd2 : ((CH ++ [m]).map RTree.ref).Nodup := by
            simp only [List.map_append, List.map_cons, List.map_nil]
            refine List.Nodup.append hchnd (by simp) ?_
            intro a ha hb
            obtain ⟨f, hfm, heq⟩ := List.mem_map.mp ha
            have : a = m.ref := by
              simp only [List.mem_cons, List.not_mem_nil, or_false] at hb
              exact hb
            rw [this, hmref] at heq
            exact absurd (heq ▸ hrootlt f hfm) (lt_irrefl n)
          have hdisj2 : ∀ e ∈ ex, ∀ f ∈ CH ++ [m], f.ref ≠ e.ref →
              ∀ x ∈ e.refs, x ∉ f.refs := by
            intro e he f hfm hne x hx
            rcases List.mem_append.mp hfm with h2 | h2
            · exact hdisj e he f h2 hne x hx
            · have : f = m := by
                simp only [List.mem_cons, List.not_mem_nil, or_false] at h2
                exact h2
              subst this
              intro hxf
              have hxlt : x < n := hlt x (refs_mem_refsList CH e (hmem e he) x hx)
              exact absurd hxlt (Nat.not_lt.mpr (hmrefs x hxf).1)
          have hlt2 : ∀ x ∈ RTree.refsList (CH ++ [m]), x < n2 := by
            intro x hx
            rw [refsList_append] at hx
            rcases List.mem_append.mp hx with h2 | h2
            · exact lt_of_lt_of_le (hlt x h2) hn2
            · simp only [RTree.refsList, List.append_nil] at h2
              exact (hmrefs x h2).2
          have hrnotin2 : r ∉ RTree.refsList (CH ++ [m]) := by
            intro hx
            rw [refsList_append] at hx
            rcases List.mem_append.mp hx with h2 | h2
            · exact hrnotin h2
            · simp only [RTree.refsList, List.append_nil] at h2
              exact absurd hrlt (Nat.not_lt.mpr (hmrefs r h2).1)
          obtain ⟨ih1, ih2⟩ := ih ex (CH ++ [m]) r tcl tnm tp n2 hmem2 hexnd hchnd2
            hrefnd hdisj2 hlt2 hrnotin2 (lt_of_lt_of_le hrlt hn2)
            (fun u hu => hB1 u (by simp [hu]))
          rw [hmc] at ih1 ih2
          have hm1 : m.ref ∉ remR := by
            intro hc
            have := mergeChildren_remR_sub rest ex n2 asg addsT remR n3 hmc m.ref hc
            obtain ⟨e, he, heq⟩ := List.mem_map.mp this
            rw [hmref] at heq
            exact absurd (heq ▸ hexrootlt e he) (lt_irrefl n)
          have hm2 : asg.find? (fun pr => decide (pr.1 = m.ref)) = none := by
            rw [List.find?_eq_none]
            intro pr hpr
            obtain ⟨e, he, h1, _⟩ :=
              mergeChildren_asg_fields rest ex n2 asg addsT remR n3 hmc pr hpr
            simp only [decide_eq_true_eq]
            rw [h1, hmref]
            intro heq
            exact absurd (heq ▸ hexrootlt e he) (lt_irrefl n)
          rw [hDF, hMC]
          dsimp only
          constructor
          · rw [hcompose]
            dsimp only
            rw [hc1, happ, ih1]
            rw [replaceByRef_append, replaceByRef_singleton asg remR m hm1 hm2]
            rw [List.append_assoc, List.singleton_append]
          · simp only [PatchSet.merge]
            rw [applyAdds_append]
            rw [hc1]
            rw [applyAdds_counter (diffChildren rest ex r).added_instances _
              (RTree.node r tcl tnm tp (CH ++ [m])) n2]
            exact ih2

set_option maxHeartbeats 1000000 in
theorem apply_eq_mergeExec (s : Snap) :
    ∀ (t : RTree) (n : Nat), t.refs.Nodup → (∀ x ∈ t.refs, x < n) →
      apply_patch_set t (compute_patch_set s t) n = (mergeExec s t n).1 ∧
      (applyAdds t (compute_patch_set s t).added_instances n).2 = (mergeExec s t n).2 := by
  induction s using Snap.snapInductionOn with
  | _ cl nm sp sch ih =>
    intro t n hnd hlt
    cases t with
    | node r tcl tnm tp tch =>
      have hndch : (RTree.refsList tch).Nodup := by
        have h0 : ((RTree.node r tcl tnm tp tch).refs).Nodup := hnd
        simp only [RTree.refs] at h0
        exact h0.of_cons
      have hrnotin : r ∉ RTree.refsList tch := by
        have h0 : ((RTree.node r tcl tnm tp tch).refs).Nodup := hnd
        simp only [RTree.refs] at h0
        exact (List.nodup_cons.mp h0).1
      have hrlt : r < n := hlt r (by simp [RTree.refs])
      have hchlt : ∀ x ∈ RTree.refsList tch, x < n := by
        intro x hx
        exact hlt x (by simp [RTree.refs, hx])
      have hCP : compute_patch_set (Snap.node cl nm sp sch) (RTree.node r tcl tnm tp tch) =
          PatchSet.merge ⟨[], [],
            if propDiff sp tp = [] then [] else [⟨r, propDiff sp tp⟩]⟩
            (diffChildren sch tch r) := by
        simp only [compute_patch_set]
      have hupd : apply_patch_set (RTree.node r tcl tnm tp tch)
          ⟨[], [], if propDiff sp tp = [] then [] else [⟨r, propDiff sp tp⟩]⟩ n =
          RTree.node r tcl tnm (applyDeltas tp (propDiff sp tp)) tch := by
        by_cases hd : propDiff sp tp = []
        · rw [if_pos hd]
          show RTree.node r tcl tnm tp tch = _
          rw [hd]
          rfl
        · rw [if_neg hd]
          show updateTree (RTree.node r tcl tnm tp tch) r (propDiff sp tp) = _
          have hut : updateTree (RTree.node r tcl tnm tp tch) r (propDiff sp tp) =
              RTree.node r tcl tnm (applyDeltas tp (propDiff sp tp))
                (updateTreeList tch r (propDiff sp tp)) := by
            simp [updateTree]
          rw [hut]
          rw [updateTreeList_noop tch r (propDiff sp tp)
            (fun e he => updateTree_noop e r _
              (fun hc => hrnotin (refs_mem_refsList tch e he r hc)))]
      have hupdc : (applyAdds (RTree.node r tcl tnm tp tch)
          ((⟨[], [], if propDiff sp tp = [] then [] else [⟨r, propDiff sp tp⟩]⟩ :
            PatchSet).added_instances) n).2 = n := rfl
      have hcompose := apply_merge_compose
        (⟨[], [], if propDiff sp tp = [] then [] else [⟨r, propDiff sp tp⟩]⟩ : PatchSet)
        (diffChildren sch tch r) (RTree.node r tcl tnm tp tch) n
        (by
          intro u hu
          by_cases hd : propDiff sp tp = []
          · rw [if_pos hd] at hu
            exact absurd hu (List.not_mem_nil u)
          · rw [if_neg hd] at hu
            rw [List.mem_singleton.mp hu]
            exact hrlt)
        (fun x hx => absurd hx (List.not_mem_nil x))
      obtain ⟨hdc1, hdc2⟩ := applyDC sch tch tch r tcl tnm
        (applyDeltas tp (propDiff sp tp)) n
        (fun e he => he) (rootRefs_nodup tch hndch) (rootRefs_nodup tch hndch)
        (fun e he => refs_nodup_of_mem tch e he hndch)
        (refsList_nodup_disjoint tch hndch)
        hchlt hrnotin hrlt ih
      constructor
      · rw [hCP, hcompose, hupdc, hupd, hdc1]
        show _ = (mergeExec (Snap.node cl nm sp sch) (RTree.node r tcl tnm tp tch) n).1
        simp only [mergeExec]
      · rw [hCP]
        simp only [PatchSet.merge, List.nil_append]
        rw [applyAdds_counter (diffChildren sch tch r).added_instances
          (RTree.node r tcl tnm tp tch)
          (RTree.node r tcl tnm (applyDeltas tp (propDiff sp tp)) tch) n]
        rw [hdc2]
        show _ = (mergeExec (Snap.node cl nm sp sch) (RTree.node r tcl tnm tp tch) n).2
        simp only [mergeExec]

/-- C7: for every tree already synced against a desired snapshot — the
result of applying the full computed patch for that snapshot to a
well-formed tree — diffing the synced tree a second time against the
unchanged desired snapshot produces the empty patch: no added entries,
no removed entries, and no updated deltas. -/
theorem diff_apply_idempotent (s : Snap) (t : RTree)
    (hs : snapWF s = true) (ht : t.refs.Nodup) :
    compute_patch_set s
      (apply_patch_set t (compute_patch_set s t) (t.maxRef + 1)) =
      PatchSet.empty := by
  have hlt : ∀ x ∈ t.refs, x < t.maxRef + 1 :=
    fun x hx => Nat.lt_succ_of_le (mem_refs_le_maxRef t x hx)
  rw [(apply_eq_mergeExec s t (t.maxRef + 1) ht hlt).1]
  exact compute_of_matches s _ (matB_mergeExec s hs t (t.maxRef + 1) ht)

/-- Witness for C7 at a concrete snapshot and tree. -/
theorem diff_apply_idempotent_witness :
    snapWF (Snap.node "DataModel" "game" [] []) = true ∧
    (RTree.node 0 "DataModel" "game" [] []).refs.Nodup ∧
    compute_patch_set (Snap.node "DataModel" "game" [] [])
      (apply_patch_set (RTree.node 0 "DataModel" "game" [] [])
        (compute_patch_set (Snap.node "DataModel" "game" [] [])
          (RTree.node 0 "DataModel" "game" [] []))
        ((RTree.node 0 "DataModel" "game" [] []).maxRef + 1)) = PatchSet.empty := by
  have h1 : snapWF (Snap.node "DataModel" "game" [] []) = true := by
    simp [snapWF, snapWFList]
  have h2 : (RTree.node 0 "DataModel" "game" [] []).refs.Nodup := by
    simp [RTree.refs, RTree.refsList]
  exact ⟨h1, h2, diff_apply_idempotent _ _ h1 h2⟩
